import Mathlib

/-!
# Verification of the block-decomposed deque (`sjtu::deque`, src/deque.hpp)

The container is a doubly linked list of blocks, each block a doubly linked
list of elements.  We embed it shallowly: a block is a `List α` (the node
chain in order), the outer list of blocks is a `List (List α)`, and the two
cached counters are carried alongside.  Node pointers are represented by
their position in the owning list: a `double_list` iterator is `some j`
(the `j`-th node) or `none` (the null end marker).  All C++ `throw`s are
modelled as failure values; dereferencing a null or dangling node pointer
(undefined behaviour in the C++) is also modelled as failure.

Counters (`size_t` in the C++) are modelled as `Nat`: no physically
realisable container reaches 2^64 elements, so counter overflow cannot
occur; the one place where unsigned wrap-around is observable at small
sizes — the iterator difference `operator-` returning a negative signed
distance through its `size_t` return type — is modelled explicitly with
`% 2^64` (`iterDiffSizeT`).
-/

namespace DequeVerify

/-- The deque state: `blocks` is the outer `double_list<Block>` (each block
given by its item list in order), `total_size` and `block_size` are the two
cached counters of `sjtu::deque`. -/
structure DequeState (α : Type) where
  blocks : List (List α)
  total_size : Nat
  block_size : Nat
deriving Repr, DecidableEq

/-- A default-constructed deque: no blocks, `total_size = 0`, `block_size = 4`. -/
def emptyDeque {α : Type} : DequeState α := ⟨[], 0, 4⟩

/-- Sum of the item counts of all blocks. -/
def sumLen {α : Type} (l : List (List α)) : Nat := (l.map List.length).sum

/-- The scan loop of `deque::Balance`, with the split/merge bodies of
`deque::Split` and `deque::Merge` inlined.  The C++ iterates over the block
list while mutating it: after a split the new second-half block is visited
next; after a merge the successor has been absorbed, so the scan continues
after it.  `Split` moves the back half (from index `size/2` on, in order)
into a new block inserted immediately after the current one; `Merge`
appends the whole successor onto the current block and erases the
successor, but only when the combined size stays within `bs`.
(`Split`'s internal guard `size <= block_size` cannot fire, since the
caller only splits when `size > 2*block_size`.)  The inner `2 ≤ b.length`
test is where the C++ loop fails to terminate: it requires `bs = 0`, which
`Balance` never passes (it always scans with `block_size = √n + 1 ≥ 1`),
and we fall through to the next block there. -/
def balanceScan {α : Type} (bs : Nat) : List (List α) → List (List α)
  | [] => []
  | b :: rest =>
    if bs * 2 < b.length then
      if 2 ≤ b.length then
        b.take (b.length / 2) :: balanceScan bs (b.drop (b.length / 2) :: rest)
      else b :: balanceScan bs rest
    else if b.length * 2 < bs then
      match rest with
      | [] => [b]
      | c :: rest2 =>
        if b.length + c.length ≤ bs then (b ++ c) :: balanceScan bs rest2
        else b :: balanceScan bs (c :: rest2)
    else b :: balanceScan bs rest
termination_by l => sumLen l + l.length
decreasing_by
  · simp only [sumLen, List.map_cons, List.sum_cons, List.length_cons, List.length_drop]
    omega
  · simp only [sumLen, List.map_cons, List.sum_cons, List.length_cons]
    omega
  · simp only [sumLen, List.map_cons, List.sum_cons, List.length_cons]
    omega
  · simp only [sumLen, List.map_cons, List.sum_cons, List.length_cons]
    omega
  · simp only [sumLen, List.map_cons, List.sum_cons, List.length_cons]
    omega

/-- `deque::Balance`: no-op when there are no blocks; recomputes
`block_size = ⌊√total_size⌋ + 1` and rescans all blocks only when the
recomputed value differs from the cached one.  (The C++ computes
`std::sqrt` on a `double`, exact at these magnitudes.) -/
def Balance {α : Type} (st : DequeState α) : DequeState α :=
  if st.blocks.isEmpty then st
  else
    let nbs := Nat.sqrt st.total_size + 1
    if nbs = st.block_size then st
    else { st with block_size := nbs, blocks := balanceScan nbs st.blocks }

/-- `deque::push_back`: appends a fresh empty block when there is no tail
block or the tail block is at/above capacity, then appends the value to the
tail block, bumps the count and rebalances. -/
def push_back {α : Type} (st : DequeState α) (v : α) : DequeState α :=
  let bl :=
    if st.blocks.isEmpty ∨ st.block_size ≤ (st.blocks.getLastD []).length
    then st.blocks ++ [[]] else st.blocks
  let bl2 := bl.dropLast ++ [bl.getLastD [] ++ [v]]
  Balance { st with blocks := bl2, total_size := st.total_size + 1 }

/-- `deque::push_front`: mirror image of `push_back` at the head. -/
def push_front {α : Type} (st : DequeState α) (v : α) : DequeState α :=
  let bl :=
    if st.blocks.isEmpty ∨ st.block_size ≤ (st.blocks.headD []).length
    then [] :: st.blocks else st.blocks
  let bl2 :=
    match bl with
    | [] => [[v]]            -- unreachable: `bl` is never empty
    | b :: rest => (v :: b) :: rest
  Balance { st with blocks := bl2, total_size := st.total_size + 1 }

/-- `deque::pop_back`: throws on an empty container; otherwise deletes the
tail item of the tail block, drops the tail block if it became empty,
decrements the count and rebalances.  The error value carries the state at
the moment of the throw. -/
def pop_back {α : Type} (st : DequeState α) : Except (DequeState α) (DequeState α) :=
  if st.total_size = 0 then .error st
  else
    match st.blocks.getLast? with
    | none => .error st      -- blocks.back() on an empty block list throws
    | some b =>
      let b2 := b.dropLast
      let bl := if b2.isEmpty then st.blocks.dropLast else st.blocks.dropLast ++ [b2]
      .ok (Balance { st with blocks := bl, total_size := st.total_size - 1 })

/-- `deque::pop_front`: mirror image of `pop_back` at the head. -/
def pop_front {α : Type} (st : DequeState α) : Except (DequeState α) (DequeState α) :=
  if st.total_size = 0 then .error st
  else
    match st.blocks with
    | [] => .error st        -- blocks.front() on an empty block list throws
    | b :: rest =>
      let b2 := b.tail
      let bl := if b2.isEmpty then rest else b2 :: rest
      .ok (Balance { st with blocks := bl, total_size := st.total_size - 1 })

/-- `deque::front`: fails when the block list is empty, else the first item
of the first block (failing again if that block has no items). -/
def front {α : Type} (st : DequeState α) : Option α :=
  match st.blocks with
  | [] => none
  | b :: _ => b.head?

/-- `deque::back`: fails when the block list is empty, else the last item
of the last block. -/
def back {α : Type} (st : DequeState α) : Option α :=
  match st.blocks.getLast? with
  | none => none
  | some b => b.getLast?

/-- The block walk of `deque::at`: find the block containing logical index
`pos` by accumulating item counts, then index into it. -/
def atAux {α : Type} : List (List α) → Nat → Option α
  | [], _ => none
  | b :: rest, pos => if pos < b.length then b[pos]? else atAux rest (pos - b.length)

/-- `deque::at`: throws when `pos ≥ total_size`, otherwise walks the block
list to the containing block and the item list to the local offset. -/
def deque_at {α : Type} (st : DequeState α) (pos : Nat) : Option α :=
  if st.total_size ≤ pos then none else atAux st.blocks pos

/-- A `deque::iterator`: a reference into the block list (`none` = the null
`blocks.end()`), and a reference into that block's item list (`none` = the
null `items.end()`).  The back-reference to the owning deque is supplied as
an argument to the iterator operations. -/
structure Iter where
  block_it : Option Nat
  item_it : Option Nat
deriving Repr, DecidableEq

/-- `double_list::begin` as a node reference: null on an empty list. -/
def listBegin {α : Type} (b : List α) : Option Nat :=
  if b.isEmpty then none else some 0

/-- `deque::begin`: the null-null iterator on an empty block list, else the
first item of the first block. -/
def dequeBegin {α : Type} (st : DequeState α) : Iter :=
  match st.blocks with
  | [] => ⟨none, none⟩
  | b :: _ => ⟨some 0, listBegin b⟩

/-- `deque::end`: the null-null iterator on an empty block list, else the
pair (tail block, that block's `items.end()`). -/
def dequeEnd {α : Type} (st : DequeState α) : Iter :=
  if st.blocks.isEmpty then ⟨none, none⟩
  else ⟨some (st.blocks.length - 1), none⟩

/-- The canonical iterator at logical position `p` (`k` is the index of the
first block of the remaining list): inside the block containing `p`, or the
(tail block, end marker) pair when `p` equals the total size. -/
def iterAtAux {α : Type} : List (List α) → Nat → Nat → Iter
  | [], _, _ => ⟨none, none⟩
  | b :: rest, k, p =>
    if p < b.length then ⟨some k, some p⟩
    else if rest.isEmpty then ⟨some k, none⟩
    else iterAtAux rest (k + 1) (p - b.length)

/-- The canonical iterator of `st` at logical position `p ≤ total_size`. -/
def iterAt {α : Type} (st : DequeState α) (p : Nat) : Iter :=
  iterAtAux st.blocks 0 p

/-- Interpret an item reference inside a block of contents `b`:
`none` (the end marker) sits at offset `b.length`; `some j` is a live node
only when `j < b.length` (a dangling reference yields `none`). -/
def itemPos {α : Type} (b : List α) : Option Nat → Option Nat
  | none => some b.length
  | some j => if j < b.length then some j else none

/-- The forward block-walk loop of `iterator::operator+`, entered with the
item reference at the begin of block `bi` (the head of the list argument)
and `remain` steps still to take: lands inside a block, or exactly on the
tail block's end marker, or throws past the end. -/
def addFrom {α : Type} : List (List α) → Nat → Nat → Option Iter
  | [], _, _ => none
  | b :: rest, bi, remain =>
    if remain < b.length then some ⟨some bi, some remain⟩
    else if rest.isEmpty then
      if remain = b.length then some ⟨some bi, none⟩ else none
    else addFrom rest (bi + 1) (remain - b.length)

/-- `iterator::operator+` for a nonnegative offset `n`: `n = 0` returns the
iterator unchanged; a null block reference throws; an offset within the
current block stays there; an offset exhausting the tail block yields
`end()`; otherwise the walk advances block by block. -/
def iterAddNat {α : Type} (st : DequeState α) (it : Iter) (n : Nat) : Option Iter :=
  if n = 0 then some it
  else
    match it.block_it with
    | none => none
    | some bi =>
      match st.blocks.drop bi with
      | [] => none                     -- dangling block reference (UB in the C++)
      | b :: rest =>
        match itemPos b it.item_it with
        | none => none                 -- dangling node reference (UB in the C++)
        | some j =>
          if n < b.length - j then some ⟨some bi, some (j + n)⟩
          else
            let remain := n - (b.length - j)
            if remain = 0 ∧ rest.isEmpty then some (dequeEnd st)
            else
              match rest with
              | [] => none             -- ++block_it reached blocks.end(): throw
              | c :: rest2 => addFrom (c :: rest2) (bi + 1) remain

/-- The backward block-walk loop of `iterator::operator-`, entered with the
item reference at the tail node of block `bi` (the head of the list
argument, which runs backwards: blocks `bi, bi-1, …, 0`). -/
def subFrom {α : Type} : List (List α) → Nat → Nat → Option Iter
  | [], _, _ => none
  | b :: rest, bi, remain =>
    if remain < b.length then some ⟨some bi, some (b.length - 1 - remain)⟩
    else if rest.isEmpty then none     -- stepping before blocks.begin(): throw
    else subFrom rest (bi - 1) (remain - b.length)

/-- The crossing part of `iterator::operator-`: moving before the first
block throws; otherwise step to the previous block's tail node and run the
backward walk (`rem` is the count still to retreat measured from the begin
of block `bi`, and one extra step is consumed by the hop itself). -/
def subCross {α : Type} (st : DequeState α) (bi rem : Nat) : Option Iter :=
  if bi = 0 then none
  else
    match (st.blocks.take bi).reverse with
    | [] => none                       -- unreachable: bi ≥ 1
    | c :: rest => subFrom (c :: rest) (bi - 1) (rem - 1)

/-- The body of `iterator::operator-` after the `end()` normalisation: the
item reference lives in block `bi` of contents `b`.  From the end marker
any within-block retreat dereferences a null predecessor and throws. -/
def subMain {α : Type} (st : DequeState α) (bi : Nat) (b : List α) (item : Option Nat)
    (n : Nat) : Option Iter :=
  match item with
  | none =>
    if n ≤ b.length then none          -- --item_it on the end marker throws
    else subCross st bi (n - b.length)
  | some j =>
    if j < b.length then
      if n ≤ j then some ⟨some bi, some (j - n)⟩
      else subCross st bi (n - j)
    else none                          -- dangling node reference (UB in the C++)

/-- `iterator::operator-` for a nonnegative offset `n`: `n = 0` returns the
iterator unchanged; the `end()` iterator is first normalised to the tail
block's tail node, consuming one step (on an empty deque this dereferences
a null node — modelled as failure). -/
def iterSubNat {α : Type} (st : DequeState α) (it : Iter) (n : Nat) : Option Iter :=
  if n = 0 then some it
  else if it = dequeEnd st then
    match st.blocks.getLast? with
    | none => none
    | some bl =>
      subMain st (st.blocks.length - 1) bl
        (if bl.isEmpty then none else some (bl.length - 1)) (n - 1)
  else
    match it.block_it with
    | none => none
    | some bi =>
      match st.blocks[bi]? with
      | none => none                   -- dangling block reference (UB in the C++)
      | some b => subMain st bi b it.item_it n

/-- `iterator::operator+` with a (possibly negative) `int` offset. -/
def iterAdd {α : Type} (st : DequeState α) (it : Iter) (n : Int) : Option Iter :=
  if n < 0 then iterSubNat st it (-n).toNat else iterAddNat st it n.toNat

/-- `iterator::operator-` with a (possibly negative) `int` offset. -/
def iterSub {α : Type} (st : DequeState α) (it : Iter) (n : Int) : Option Iter :=
  if n < 0 then iterAddNat st it (-n).toNat else iterSubNat st it n.toNat

/-- Prefix `iterator::operator++`: throws on a null block reference, on the
overall end iterator and on any block-local end marker; advances to the
next node, hopping to the next block's begin when falling off a non-tail
block. -/
def iterInc {α : Type} (st : DequeState α) (it : Iter) : Option Iter :=
  match it.block_it with
  | none => none
  | some bi =>
    match st.blocks.drop bi with
    | [] => none                       -- dangling block reference (UB in the C++)
    | b :: rest =>
      match it.item_it with
      | none => none
      | some j =>
        if j < b.length then
          if j + 1 = b.length then
            match rest with
            | [] => some ⟨some bi, none⟩
            | c :: _ => some ⟨some (bi + 1), listBegin c⟩
          else some ⟨some bi, some (j + 1)⟩
        else none                      -- dangling node reference (UB in the C++)

/-- `n`-fold application of the prefix increment. -/
def iterIncN {α : Type} (st : DequeState α) (it : Iter) : Nat → Option Iter
  | 0 => some it
  | n + 1 => (iterIncN st it n).bind (iterInc st)

/-- The forward accumulation loop of the iterator difference: total item
count of blocks `k, k+1, …, target-1`, or failure when the walk falls off
`blocks.end()` before reaching `target`. -/
def accumBetween {α : Type} (st : DequeState α) (k target : Nat) : Option Nat :=
  if k = target then some 0
  else if h : k < st.blocks.length then
    (accumBetween st (k + 1) target).map (fun d => st.blocks[k].length + d)
  else none
termination_by st.blocks.length - k

/-- `iterator::operator-(const iterator&)`, the signed distance it computes
before the conversion to the unsigned return type.  Null block references
throw; within one block both walk directions yield `p1 - p2`; across blocks
the code first walks forward from `rhs` and, if that falls off the end,
forward from `this`, negating; when both walks fail (distinct containers)
it throws. -/
def iterDiffSigned {α : Type} (st : DequeState α) (it1 it2 : Iter) : Option Int :=
  match it1.block_it, it2.block_it with
  | some b1, some b2 =>
    if b1 = b2 then
      match st.blocks[b1]? with
      | none => none
      | some blk =>
        match itemPos blk it1.item_it, itemPos blk it2.item_it with
        | some p1, some p2 => some ((p1 : Int) - (p2 : Int))
        | _, _ => none
    else
      match st.blocks[b1]?, st.blocks[b2]? with
      | some blk1, some blk2 =>
        match itemPos blk1 it1.item_it, itemPos blk2 it2.item_it with
        | some p1, some p2 =>
          match accumBetween st (b2 + 1) b1 with
          | some mid => some (((blk2.length - p2) + mid + p1 : Nat) : Int)
          | none =>
            match accumBetween st (b1 + 1) b2 with
            | some mid => some (-(((blk1.length - p1) + mid + p2 : Nat) : Int))
            | none => none
        | _, _ => none
      | _, _ => none
  | _, _ => none

/-- The `size_t` value actually returned by `operator-`: the signed
distance reduced modulo 2^64 (a negative distance wraps around). -/
def iterDiffSizeT {α : Type} (st : DequeState α) (it1 it2 : Iter) : Option Nat :=
  (iterDiffSigned st it1 it2).map (fun v => (v % ((2 : Int) ^ 64)).toNat)

/-- The iterator-recomputation walk shared by `insert` and `erase`:
starting from `blocks.begin()`, subtract block sizes while `dis` is not
smaller, breaking at the tail block, then advance from the begin of the
block reached.  (At the tail block the C++ subtracts once more before
breaking; that branch is unreachable from `insert`/`erase`, which call this
with `dis < total_size`.) -/
def locateAux {α : Type} : List (List α) → Nat → Nat → Iter
  | [], _, _ => ⟨none, none⟩
  | b :: rest, bi, dis =>
    if dis < b.length then ⟨some bi, some dis⟩
    else if rest.isEmpty then ⟨some bi, some (dis - b.length)⟩
    else locateAux rest (bi + 1) (dis - b.length)

/-- `deque::insert`: on a block-less deque only insertion at `end()` is
allowed and creates the first block (no rebalancing).  Otherwise a null
block reference throws, the logical offset `dis` of `pos` is computed as
`pos - begin()` and bounds-checked, the value is spliced into `pos`'s block
at `pos`'s node (end marker = append to that block), the count is bumped,
rebalancing runs, and the returned iterator is recomputed from `dis`.
The C++ stores `dis` in a `size_t`; for same-container iterators the
difference from `begin()` is nonnegative (and physically below 2^64), where
the conversion is the identity. -/
def insert {α : Type} (st : DequeState α) (pos : Iter) (v : α) :
    Except (DequeState α) (DequeState α × Iter) :=
  match st.blocks with
  | [] =>
    if pos ≠ dequeEnd st then .error st
    else .ok ({ st with blocks := [[v]], total_size := st.total_size + 1 }, ⟨some 0, some 0⟩)
  | _ :: _ =>
    match pos.block_it with
    | none => .error st
    | some bi =>
      match iterDiffSigned st pos (dequeBegin st) with
      | none => .error st
      | some dsigned =>
        let dis := dsigned.toNat
        if st.total_size < dis then .error st
        else
          match st.blocks[bi]? with
          | none => .error st          -- dangling block reference (UB in the C++)
          | some b =>
            match itemPos b pos.item_it with
            | none => .error st        -- dangling node reference (UB in the C++)
            | some j =>
              let bl := st.blocks.set bi (b.insertIdx j v)
              let st1 := Balance { st with blocks := bl, total_size := st.total_size + 1 }
              .ok (st1, locateAux st1.blocks 0 dis)

/-- `deque::erase`: a null block reference throws; the logical offset `dis`
of `pos` is computed as `pos - begin()` and bounds-checked; the node is
erased from its block's item list (erasing the end marker throws), an
emptied block is removed, the count decrements; if the container is now
empty or the last element was erased, `end()` is returned immediately
(without rebalancing); otherwise rebalancing runs and the returned iterator
is recomputed from `dis`. -/
def erase {α : Type} (st : DequeState α) (pos : Iter) :
    Except (DequeState α) (DequeState α × Iter) :=
  match pos.block_it with
  | none => .error st
  | some bi =>
    match iterDiffSigned st pos (dequeBegin st) with
    | none => .error st
    | some dsigned =>
      let dis := dsigned.toNat
      if st.total_size ≤ dis then .error st
      else
        match st.blocks[bi]? with
        | none => .error st            -- dangling block reference (UB in the C++)
        | some b =>
          match pos.item_it with
          | none => .error st          -- double_list::erase throws on the end marker
          | some j =>
            if b.length ≤ j then .error st   -- dangling node reference (UB in the C++)
            else
              let b2 := b.eraseIdx j
              let bl := if b2.isEmpty then st.blocks.eraseIdx bi else st.blocks.set bi b2
              let st2 : DequeState α := { st with blocks := bl, total_size := st.total_size - 1 }
              if st2.total_size = 0 ∨ dis = st2.total_size then .ok (st2, dequeEnd st2)
              else
                let st3 := Balance st2
                .ok (st3, locateAux st3.blocks 0 dis)

/-- One deque operation of the correspondence claim; `insertAt`/`eraseAt`
name the logical position of the iterator the C++ caller would pass. -/
inductive DequeOp (α : Type) where
  | push_back (v : α)
  | push_front (v : α)
  | pop_back
  | pop_front
  | insertAt (i : Nat) (v : α)
  | eraseAt (i : Nat)

/-- Run one operation on the deque; a failing operation leaves the state
unchanged (the C++ throws before mutating, see the atomicity claim), and an
out-of-range `insertAt`/`eraseAt` position (not expressible by a valid
iterator) is a no-op. -/
def stepDeque {α : Type} (st : DequeState α) : DequeOp α → DequeState α
  | .push_back v => push_back st v
  | .push_front v => push_front st v
  | .pop_back => match pop_back st with | .ok s => s | .error _ => st
  | .pop_front => match pop_front st with | .ok s => s | .error _ => st
  | .insertAt i v =>
      if i ≤ st.total_size then
        match insert st (iterAt st i) v with | .ok s => s.1 | .error _ => st
      else st
  | .eraseAt i =>
      if i < st.total_size then
        match erase st (iterAt st i) with | .ok s => s.1 | .error _ => st
      else st

/-- The reference flat-array model of one operation: pops on an empty
sequence and out-of-range positions are no-ops, matching `stepDeque`. -/
def stepRef {α : Type} (l : List α) : DequeOp α → List α
  | .push_back v => l ++ [v]
  | .push_front v => v :: l
  | .pop_back => l.dropLast
  | .pop_front => l.tail
  | .insertAt i v => if i ≤ l.length then l.insertIdx i v else l
  | .eraseAt i => if i < l.length then l.eraseIdx i else l

/-- The structural invariant of every reachable deque: the cached count is
the sum of the blocks' item counts, and no block is empty. -/
def WF {α : Type} (st : DequeState α) : Prop :=
  st.total_size = sumLen st.blocks ∧ ∀ b ∈ st.blocks, b ≠ []

instance {α : Type} [DecidableEq α] (st : DequeState α) : Decidable (WF st) :=
  inferInstanceAs (Decidable (st.total_size = sumLen st.blocks ∧ ∀ b ∈ st.blocks, b ≠ []))

/-! ## Bookkeeping lemmas -/

theorem sqrt_one_eq : Nat.sqrt 1 = 1 := rfl

theorem sqrt_two_eq : Nat.sqrt 2 = 1 := by
  have h1 : 1 ≤ Nat.sqrt 2 := by
    rw [Nat.le_sqrt]
    omega
  have h2 : Nat.sqrt 2 < 2 := by
    rw [Nat.sqrt_lt]
    omega
  omega

theorem sumLen_nil {α : Type} : sumLen ([] : List (List α)) = 0 := rfl

theorem sumLen_cons {α : Type} (b : List α) (l : List (List α)) :
    sumLen (b :: l) = b.length + sumLen l := by
  simp [sumLen]

theorem sumLen_append {α : Type} (l1 l2 : List (List α)) :
    sumLen (l1 ++ l2) = sumLen l1 + sumLen l2 := by
  simp [sumLen]

theorem sumLen_eq_length_flatten {α : Type} (l : List (List α)) :
    sumLen l = l.flatten.length := by
  simp [sumLen, List.length_flatten]

/-! ## `balanceScan` and `Balance` -/

theorem balanceScan_nil {α : Type} (bs : Nat) : balanceScan bs ([] : List (List α)) = [] := by
  rw [balanceScan.eq_def]

theorem balanceScan_cons {α : Type} (bs : Nat) (b : List α) (rest : List (List α)) :
    balanceScan bs (b :: rest) =
    if bs * 2 < b.length then
      if 2 ≤ b.length then
        b.take (b.length / 2) :: balanceScan bs (b.drop (b.length / 2) :: rest)
      else b :: balanceScan bs rest
    else if b.length * 2 < bs then
      match rest with
      | [] => [b]
      | c :: rest2 =>
        if b.length + c.length ≤ bs then (b ++ c) :: balanceScan bs rest2
        else b :: balanceScan bs (c :: rest2)
    else b :: balanceScan bs rest := by
  rw [balanceScan.eq_def]

/-- Splitting and merging preserve the concatenated element sequence. -/
theorem flatten_balanceScan {α : Type} (bs : Nat) (l : List (List α)) :
    (balanceScan bs l).flatten = l.flatten := by
  induction l using balanceScan.induct bs with
  | case1 => rw [balanceScan_nil]
  | case2 b rest h h2 ih =>
      rw [balanceScan_cons, if_pos h, if_pos h2]
      simp only [List.flatten_cons] at ih ⊢
      rw [ih, ← List.append_assoc, List.take_append_drop]
  | case3 b rest h h2 ih =>
      rw [balanceScan_cons, if_pos h, if_neg h2]
      simp only [List.flatten_cons, ih]
  | case4 b h h2 =>
      rw [balanceScan_cons, if_neg h, if_pos h2]
  | case5 b h h2 c rest2 h3 ih =>
      rw [balanceScan_cons, if_neg h, if_pos h2]
      simp only [if_pos h3, List.flatten_cons, ih, List.append_assoc]
  | case6 b h h2 c rest2 h3 ih =>
      rw [balanceScan_cons, if_neg h, if_pos h2]
      simp only [if_neg h3, List.flatten_cons, ih]
  | case7 b rest h h2 ih =>
      rw [balanceScan_cons, if_neg h, if_neg h2]
      simp only [List.flatten_cons, ih]

theorem sumLen_balanceScan {α : Type} (bs : Nat) (l : List (List α)) :
    sumLen (balanceScan bs l) = sumLen l := by
  rw [sumLen_eq_length_flatten, sumLen_eq_length_flatten, flatten_balanceScan]

theorem balanceScan_ne_nil {α : Type} (bs : Nat) (l : List (List α)) (h : l ≠ []) :
    balanceScan bs l ≠ [] := by
  cases l with
  | nil => exact absurd rfl h
  | cons b rest =>
      rw [balanceScan_cons]
      repeat' split
      all_goals simp

/-- With a positive target capacity, the scan never creates an empty block:
split halves of a block longer than `2·bs ≥ 2` are both nonempty, and a
merged block contains both operands. -/
theorem balanceScan_forall_ne_nil {α : Type} (bs : Nat) (hbs : 1 ≤ bs) (l : List (List α))
    (h : ∀ b ∈ l, b ≠ []) : ∀ b ∈ balanceScan bs l, b ≠ [] := by
  induction l using balanceScan.induct bs with
  | case1 =>
      rw [balanceScan_nil]
      intro b hb
      exact absurd hb (List.not_mem_nil b)
  | case2 b rest h1 h2 ih =>
      rw [balanceScan_cons, if_pos h1, if_pos h2]
      intro x hx
      rcases List.mem_cons.mp hx with hx | hx
      · subst hx
        have : (b.take (b.length / 2)).length = b.length / 2 := by
          rw [List.length_take]
          omega
        intro hc
        rw [hc] at this
        simp at this
        omega
      · refine ih ?_ x hx
        intro y hy
        rcases List.mem_cons.mp hy with hy | hy
        · subst hy
          have : (b.drop (b.length / 2)).length = b.length - b.length / 2 := List.length_drop _ _
          intro hc
          rw [hc] at this
          simp at this
          omega
        · exact h y (List.mem_cons_of_mem _ hy)
  | case3 b rest h1 h2 ih =>
      intro x hx
      exact absurd h1 (by omega)
  | case4 b h1 h2 =>
      rw [balanceScan_cons, if_neg h1, if_pos h2]
      intro x hx
      rcases List.mem_cons.mp hx with hx | hx
      · subst hx
        exact h x (List.mem_cons_self _ _)
      · exact absurd hx (List.not_mem_nil x)
  | case5 b h1 h2 c rest2 h3 ih =>
      rw [balanceScan_cons, if_neg h1, if_pos h2]
      simp only [if_pos h3]
      intro x hx
      rcases List.mem_cons.mp hx with hx | hx
      · subst hx
        have hb := h b (List.mem_cons_self _ _)
        intro hc
        simp at hc
        exact hb hc.1
      · refine ih ?_ x hx
        intro y hy
        exact h y (List.mem_cons_of_mem _ (List.mem_cons_of_mem _ hy))
  | case6 b h1 h2 c rest2 h3 ih =>
      rw [balanceScan_cons, if_neg h1, if_pos h2]
      simp only [if_neg h3]
      intro x hx
      rcases List.mem_cons.mp hx with hx | hx
      · subst hx
        exact h x (List.mem_cons_self _ _)
      · refine ih ?_ x hx
        intro y hy
        exact h y (List.mem_cons_of_mem _ hy)
  | case7 b rest h1 h2 ih =>
      rw [balanceScan_cons, if_neg h1, if_neg h2]
      intro x hx
      rcases List.mem_cons.mp hx with hx | hx
      · subst hx
        exact h x (List.mem_cons_self _ _)
      · refine ih ?_ x hx
        intro y hy
        exact h y (List.mem_cons_of_mem _ hy)

theorem Balance_total {α : Type} (st : DequeState α) :
    (Balance st).total_size = st.total_size := by
  unfold Balance
  split
  · rfl
  · dsimp only
    split
    · rfl
    · rfl

theorem Balance_flatten {α : Type} (st : DequeState α) :
    (Balance st).blocks.flatten = st.blocks.flatten := by
  unfold Balance
  split
  · rfl
  · dsimp only
    split
    · rfl
    · exact flatten_balanceScan _ _

theorem Balance_nil {α : Type} (st : DequeState α) (h : st.blocks = []) :
    Balance st = st := by
  unfold Balance
  rw [if_pos (by simp [h])]

theorem Balance_same_bs {α : Type} (st : DequeState α)
    (h : Nat.sqrt st.total_size + 1 = st.block_size) : Balance st = st := by
  unfold Balance
  split
  · rfl
  · rw [if_pos h]

theorem Balance_block_size {α : Type} (st : DequeState α) (h : st.blocks ≠ []) :
    (Balance st).block_size = Nat.sqrt st.total_size + 1 := by
  unfold Balance
  rw [if_neg (by simp [h])]
  dsimp only
  split
  · omega
  · rfl

theorem Balance_blocks_ne_nil {α : Type} (st : DequeState α) (h : st.blocks ≠ []) :
    (Balance st).blocks ≠ [] := by
  unfold Balance
  split
  · exact h
  · dsimp only
    split
    · exact h
    · exact balanceScan_ne_nil _ _ h

theorem Balance_forall_ne_nil {α : Type} (st : DequeState α)
    (h : ∀ b ∈ st.blocks, b ≠ []) : ∀ b ∈ (Balance st).blocks, b ≠ [] := by
  unfold Balance
  split
  · exact h
  · dsimp only
    split
    · exact h
    · exact balanceScan_forall_ne_nil _ (Nat.le_add_left 1 _) _ h

theorem Balance_WF {α : Type} (st : DequeState α) (h : WF st) : WF (Balance st) := by
  refine ⟨?_, Balance_forall_ne_nil st h.2⟩
  rw [Balance_total, sumLen_eq_length_flatten, Balance_flatten, ← sumLen_eq_length_flatten]
  exact h.1

/-! ## End operations -/

theorem WF_blocks_nil_iff {α : Type} (st : DequeState α) (h : WF st) :
    st.blocks = [] ↔ st.total_size = 0 := by
  obtain ⟨ht, hne⟩ := h
  constructor
  · intro hb
    rw [ht, hb, sumLen_nil]
  · intro h0
    cases hb : st.blocks with
    | nil => rfl
    | cons b rest =>
        exfalso
        rw [ht, hb, sumLen_cons] at h0
        have hbne := hne b (by rw [hb]; exact List.mem_cons_self _ _)
        have : b.length = 0 := by omega
        exact hbne (List.length_eq_zero.mp this)

/-- The block list produced by appending `v` to the last block of a
nonempty block list carries the old sequence plus `v` at the back. -/
theorem flatten_appendLast {α : Type} (bl : List (List α)) (h : bl ≠ []) (v : α) :
    (bl.dropLast ++ [bl.getLastD [] ++ [v]]).flatten = bl.flatten ++ [v] := by
  conv_rhs => rw [← List.dropLast_append_getLast h]
  rw [List.flatten_append, List.flatten_append]
  simp [List.getLastD_eq_getLast?, List.getLast?_eq_getLast _ h]

theorem push_back_spec {α : Type} (st : DequeState α) (v : α) (h : WF st) :
    WF (push_back st v) ∧
    (push_back st v).blocks.flatten = st.blocks.flatten ++ [v] ∧
    (push_back st v).total_size = st.total_size + 1 := by
  obtain ⟨ht, hne⟩ := h
  unfold push_back
  set bl := if st.blocks.isEmpty ∨ st.block_size ≤ (st.blocks.getLastD []).length
      then st.blocks ++ [[]] else st.blocks with hbl
  have hblne : bl ≠ [] := by
    rw [hbl]
    split
    · simp
    · intro hc
      simp [hc] at *
  have hblfl : bl.flatten = st.blocks.flatten := by
    rw [hbl]; split <;> simp
  have hdrop : ∀ b ∈ bl.dropLast, b ≠ [] := by
    rw [hbl]
    split
    · rw [List.dropLast_concat]
      exact hne
    · intro b hb
      exact hne b (List.mem_of_mem_dropLast hb)
  have hlast : bl.getLastD [] ++ [v] ≠ [] := by simp
  set bl2 := bl.dropLast ++ [bl.getLastD [] ++ [v]] with hbl2
  have hfl2 : bl2.flatten = st.blocks.flatten ++ [v] := by
    rw [hbl2, flatten_appendLast bl hblne, hblfl]
  have hwf2 : WF ⟨bl2, st.total_size + 1, st.block_size⟩ := by
    constructor
    · show st.total_size + 1 = sumLen bl2
      rw [sumLen_eq_length_flatten, hfl2, List.length_append, ht, sumLen_eq_length_flatten]
      rfl
    · intro b hb
      rcases List.mem_append.mp hb with hb | hb
      · exact hdrop b hb
      · rw [List.mem_singleton.mp hb]
        exact hlast
  refine ⟨Balance_WF _ hwf2, ?_, ?_⟩
  · rw [Balance_flatten]
    exact hfl2
  · rw [Balance_total]

theorem push_front_spec {α : Type} (st : DequeState α) (v : α) (h : WF st) :
    WF (push_front st v) ∧
    (push_front st v).blocks.flatten = v :: st.blocks.flatten ∧
    (push_front st v).total_size = st.total_size + 1 := by
  obtain ⟨ht, hne⟩ := h
  unfold push_front
  set bl := if st.blocks.isEmpty ∨ st.block_size ≤ (st.blocks.headD []).length
      then [] :: st.blocks else st.blocks with hbl
  have hblfl : bl.flatten = st.blocks.flatten := by
    rw [hbl]; split <;> simp
  have htail : ∀ rest, bl = [] :: rest → ∀ b ∈ rest, b ≠ [] := by
    intro rest hrest b hb
    apply hne b
    rw [hbl] at hrest
    revert hrest
    split
    · intro hrest
      injection hrest with _ h2
      rw [← h2] at hb
      exact hb
    · intro hrest
      rw [hrest]
      exact List.mem_cons_of_mem _ hb
  cases hblc : bl with
  | nil =>
      exfalso
      rw [hbl] at hblc
      revert hblc
      split
      · intro hc; cases hc
      · intro hc
        simp [hc] at *
  | cons b rest =>
      have hfl2 : ((v :: b) :: rest).flatten = v :: st.blocks.flatten := by
        rw [← hblfl, hblc]
        simp
      have hmem : ∀ x ∈ rest, x ≠ [] := by
        intro x hx
        rw [hbl] at hblc
        revert hblc
        split
        · intro hblc
          injection hblc with _ h2
          apply hne x
          rw [← h2] at hx
          exact hx
        · intro hblc
          apply hne x
          rw [hblc]
          exact List.mem_cons_of_mem _ hx
      have hwf2 : WF ⟨(v :: b) :: rest, st.total_size + 1, st.block_size⟩ := by
        constructor
        · show st.total_size + 1 = sumLen ((v :: b) :: rest)
          rw [sumLen_eq_length_flatten, hfl2, ht, sumLen_eq_length_flatten]
          rfl
        · intro x hx
          rcases List.mem_cons.mp hx with hx | hx
          · rw [hx]; simp
          · exact hmem x hx
      refine ⟨Balance_WF _ hwf2, ?_, ?_⟩
      · rw [Balance_flatten]
        exact hfl2
      · rw [Balance_total]

theorem pop_back_err {α : Type} (st : DequeState α) (h : st.total_size = 0) :
    pop_back st = .error st := by
  unfold pop_back
  rw [if_pos h]

theorem pop_front_err {α : Type} (st : DequeState α) (h : st.total_size = 0) :
    pop_front st = .error st := by
  unfold pop_front
  rw [if_pos h]

theorem pop_back_spec {α : Type} (st : DequeState α) (h : WF st) (hpos : st.total_size ≠ 0) :
    ∃ st2, pop_back st = .ok st2 ∧ WF st2 ∧
      st2.blocks.flatten = st.blocks.flatten.dropLast ∧
      st2.total_size = st.total_size - 1 := by
  obtain ⟨ht, hne⟩ := h
  have hbne : st.blocks ≠ [] := by
    intro hc
    exact hpos ((WF_blocks_nil_iff st ⟨ht, hne⟩).mp hc)
  have hlast : st.blocks.getLast? = some (st.blocks.getLast hbne) :=
    List.getLast?_eq_getLast _ hbne
  set b := st.blocks.getLast hbne with hb
  have hbnn : b ≠ [] := hne b (List.getLast_mem hbne)
  have hdec : st.blocks.dropLast ++ [b] = st.blocks := List.dropLast_append_getLast hbne
  have hflsplit : st.blocks.flatten = st.blocks.dropLast.flatten ++ b := by
    conv_lhs => rw [← hdec]
    simp
  set bl := if b.dropLast.isEmpty then st.blocks.dropLast
      else st.blocks.dropLast ++ [b.dropLast] with hbl
  have hflbl : bl.flatten = st.blocks.flatten.dropLast := by
    rw [hflsplit, List.dropLast_append_of_ne_nil _ hbnn, hbl]
    split
    · next hh =>
        rw [List.isEmpty_iff.mp hh]
        simp
    · simp
  have hmem : ∀ x ∈ bl, x ≠ [] := by
    intro x hx
    rw [hbl] at hx
    revert hx
    split
    · intro hx
      exact hne x (List.mem_of_mem_dropLast hx)
    · next hh =>
        intro hx
        rcases List.mem_append.mp hx with hx | hx
        · exact hne x (List.mem_of_mem_dropLast hx)
        · rw [List.mem_singleton.mp hx]
          intro hc
          rw [hc] at hh
          simp at hh
  have hwf2 : WF ⟨bl, st.total_size - 1, st.block_size⟩ := by
    refine ⟨?_, hmem⟩
    show st.total_size - 1 = sumLen bl
    rw [sumLen_eq_length_flatten, hflbl, List.length_dropLast, ht, sumLen_eq_length_flatten]
  refine ⟨_, ?_, Balance_WF _ hwf2, ?_, ?_⟩
  · unfold pop_back
    rw [if_neg hpos, hlast]
  · rw [Balance_flatten]
    exact hflbl
  · rw [Balance_total]

theorem pop_front_spec {α : Type} (st : DequeState α) (h : WF st) (hpos : st.total_size ≠ 0) :
    ∃ st2, pop_front st = .ok st2 ∧ WF st2 ∧
      st2.blocks.flatten = st.blocks.flatten.tail ∧
      st2.total_size = st.total_size - 1 := by
  obtain ⟨ht, hne⟩ := h
  have hbne : st.blocks ≠ [] := by
    intro hc
    exact hpos ((WF_blocks_nil_iff st ⟨ht, hne⟩).mp hc)
  cases hblocks : st.blocks with
  | nil => exact absurd hblocks hbne
  | cons b rest =>
      have hbnn : b ≠ [] := hne b (by rw [hblocks]; exact List.mem_cons_self _ _)
      have hflsplit : st.blocks.flatten = b ++ rest.flatten := by rw [hblocks]; simp
      set bl := if b.tail.isEmpty then rest else b.tail :: rest with hbl
      have hflbl : bl.flatten = st.blocks.flatten.tail := by
        rw [hflsplit, List.tail_append_of_ne_nil hbnn, hbl]
        split
        · next hh =>
            rw [List.isEmpty_iff.mp hh]
            simp
        · simp
      have hmem : ∀ x ∈ bl, x ≠ [] := by
        intro x hx
        rw [hbl] at hx
        revert hx
        split
        · intro hx
          exact hne x (by rw [hblocks]; exact List.mem_cons_of_mem _ hx)
        · next hh =>
            intro hx
            rcases List.mem_cons.mp hx with hx | hx
            · rw [hx]
              intro hc
              rw [hc] at hh
              simp at hh
            · exact hne x (by rw [hblocks]; exact List.mem_cons_of_mem _ hx)
      have hwf2 : WF ⟨bl, st.total_size - 1, st.block_size⟩ := by
        refine ⟨?_, hmem⟩
        show st.total_size - 1 = sumLen bl
        rw [sumLen_eq_length_flatten, hflbl, List.length_tail, ht, sumLen_eq_length_flatten]
      rw [hblocks] at hflbl
      refine ⟨_, ?_, Balance_WF _ hwf2, ?_, ?_⟩
      · unfold pop_front
        rw [if_neg hpos]
        rw [hblocks]
      · rw [Balance_flatten]
        exact hflbl
      · rw [Balance_total]

theorem front_spec {α : Type} (st : DequeState α) (h : WF st) :
    front st = st.blocks.flatten.head? ∧ (front st = none ↔ st.total_size = 0) := by
  have hmain : front st = st.blocks.flatten.head? := by
    unfold front
    cases hb : st.blocks with
    | nil => simp
    | cons b rest =>
        have hbnn : b ≠ [] := h.2 b (by rw [hb]; exact List.mem_cons_self _ _)
        simp [List.head?_append_of_ne_nil _ hbnn]
  refine ⟨hmain, ?_⟩
  rw [hmain]
  rw [List.head?_eq_none_iff]
  constructor
  · intro hfl
    rw [h.1, sumLen_eq_length_flatten, hfl]
    rfl
  · intro h0
    have := (WF_blocks_nil_iff st h).mpr h0
    rw [this]
    rfl

theorem back_spec {α : Type} (st : DequeState α) (h : WF st) :
    back st = st.blocks.flatten.getLast? ∧ (back st = none ↔ st.total_size = 0) := by
  have hmain : back st = st.blocks.flatten.getLast? := by
    unfold back
    cases hb : st.blocks.getLast? with
    | none =>
        rw [List.getLast?_eq_none_iff] at hb
        rw [hb]
        rfl
    | some b =>
        have hmem : b ∈ st.blocks := List.mem_of_mem_getLast? hb
        have hbnn : b ≠ [] := h.2 b hmem
        have hdec : st.blocks.dropLast ++ [b] = st.blocks := List.dropLast_append_getLast? b hb
        conv_rhs => rw [← hdec]
        rw [List.flatten_append]
        simp [List.getLast?_append_of_ne_nil _ hbnn]
  refine ⟨hmain, ?_⟩
  rw [hmain, List.getLast?_eq_none_iff]
  constructor
  · intro hfl
    rw [h.1, sumLen_eq_length_flatten, hfl]
    rfl
  · intro h0
    have := (WF_blocks_nil_iff st h).mpr h0
    rw [this]
    rfl

/-! ## Indexed access -/

theorem atAux_eq_getElem? {α : Type} (l : List (List α)) (pos : Nat) :
    atAux l pos = l.flatten[pos]? := by
  induction l generalizing pos with
  | nil => simp [atAux]
  | cons b rest ih =>
      simp only [atAux, List.flatten_cons]
      split
      · next h => rw [List.getElem?_append_left h]
      · next h => rw [ih, List.getElem?_append_right (by omega)]

theorem deque_at_spec {α : Type} (st : DequeState α) (h : WF st) (pos : Nat) :
    deque_at st pos = st.blocks.flatten[pos]? := by
  unfold deque_at
  split
  · next hge =>
      rw [eq_comm, List.getElem?_eq_none_iff]
      rw [h.1, sumLen_eq_length_flatten] at hge
      exact hge
  · exact atAux_eq_getElem? _ _

/-! ## Canonical iterator positions -/

theorem iterAtAux_cons {α : Type} (b : List α) (rest : List (List α)) (k p : Nat) :
    iterAtAux (b :: rest) k p =
    if p < b.length then ⟨some k, some p⟩
    else if rest.isEmpty then ⟨some k, none⟩
    else iterAtAux rest (k + 1) (p - b.length) := by
  rw [iterAtAux]

theorem iterAtAux_of_decomp {α : Type} :
    ∀ (bi : Nat) (l : List (List α)) (k : Nat) (b : List α) (rest : List (List α)) (j : Nat),
      l.drop bi = b :: rest → j < b.length →
      iterAtAux l k (sumLen (l.take bi) + j) = ⟨some (k + bi), some j⟩ := by
  intro bi
  induction bi with
  | zero =>
      intro l k b rest j hdrop hj
      rw [List.drop_zero] at hdrop
      subst hdrop
      simp [iterAtAux, sumLen_nil, hj]
  | succ bi ih =>
      intro l k b rest j hdrop hj
      cases l with
      | nil => simp at hdrop
      | cons c l2 =>
          rw [List.drop_succ_cons] at hdrop
          rw [List.take_succ_cons, sumLen_cons]
          cases l2 with
          | nil =>
              rw [List.drop_nil] at hdrop
              exact absurd hdrop (by simp)
          | cons d l3 =>
              have hrec := ih (d :: l3) (k + 1) b rest j hdrop hj
              rw [Nat.add_assoc, iterAtAux_cons, if_neg (by omega), if_neg (by simp),
                Nat.add_sub_cancel_left, hrec]
              have e2 : k + 1 + bi = k + (bi + 1) := by omega
              rw [e2]

theorem iterAtAux_total {α : Type} :
    ∀ (l : List (List α)) (k : Nat), l ≠ [] →
      iterAtAux l k (sumLen l) = ⟨some (k + (l.length - 1)), none⟩ := by
  intro l
  induction l with
  | nil => intro k h; exact absurd rfl h
  | cons b rest ih =>
      intro k _
      rw [sumLen_cons, iterAtAux_cons, if_neg (by omega)]
      cases rest with
      | nil => simp
      | cons c r2 =>
          rw [if_neg (by simp), Nat.add_sub_cancel_left, ih (k + 1) (by simp)]
          have e2 : k + 1 + ((c :: r2).length - 1) = k + ((b :: c :: r2).length - 1) := by
            simp only [List.length_cons]
            omega
          rw [e2]

theorem iterAtAux_suffix {α : Type} :
    ∀ (bi : Nat) (l : List (List α)) (k q : Nat), l.drop bi ≠ [] → sumLen (l.take bi) ≤ q →
      iterAtAux l k q = iterAtAux (l.drop bi) (k + bi) (q - sumLen (l.take bi)) := by
  intro bi
  induction bi with
  | zero => intro l k q _ _; simp [sumLen_nil]
  | succ bi ih =>
      intro l k q h1 h2
      cases l with
      | nil => simp at h1
      | cons c l2 =>
          rw [List.drop_succ_cons] at h1 ⊢
          rw [List.take_succ_cons, sumLen_cons] at h2 ⊢
          cases l2 with
          | nil =>
              rw [List.drop_nil] at h1
              exact absurd rfl h1
          | cons d l3 =>
              have hsum : sumLen ((d :: l3).take bi) ≤ q - c.length := by omega
              rw [iterAtAux_cons, if_neg (by omega), if_neg (by simp),
                ih (d :: l3) (k + 1) (q - c.length) h1 hsum]
              have e1 : k + 1 + bi = k + (bi + 1) := by omega
              have e2 : q - c.length - sumLen ((d :: l3).take bi) =
                  q - (c.length + sumLen ((d :: l3).take bi)) := by omega
              rw [e1, e2]

theorem exists_block_decomp {α : Type} :
    ∀ (l : List (List α)) (p : Nat), p < sumLen l →
      ∃ bi b rest j, l.drop bi = b :: rest ∧ j < b.length ∧ sumLen (l.take bi) + j = p := by
  intro l
  induction l with
  | nil =>
      intro p h
      rw [sumLen_nil] at h
      omega
  | cons b rest ih =>
      intro p h
      by_cases hp : p < b.length
      · exact ⟨0, b, rest, p, by simp, hp, by simp [sumLen_nil]⟩
      · rw [sumLen_cons] at h
        obtain ⟨bi, b2, r2, j, h1, h2, h3⟩ := ih (p - b.length) (by omega)
        refine ⟨bi + 1, b2, r2, j, by simpa using h1, h2, ?_⟩
        rw [List.take_succ_cons, sumLen_cons]
        omega

/-- The canonical iterator at `p < total_size` sits inside the block
containing `p`. -/
theorem iterAt_char_lt {α : Type} (st : DequeState α) (h : WF st) (p : Nat)
    (hp : p < st.total_size) :
    ∃ bi b rest j, st.blocks.drop bi = b :: rest ∧ j < b.length ∧
      sumLen (st.blocks.take bi) + j = p ∧ iterAt st p = ⟨some bi, some j⟩ := by
  obtain ⟨bi, b, rest, j, h1, h2, h3⟩ :=
    exists_block_decomp st.blocks p (by rw [← h.1]; exact hp)
  refine ⟨bi, b, rest, j, h1, h2, h3, ?_⟩
  unfold iterAt
  rw [← h3, iterAtAux_of_decomp bi st.blocks 0 b rest j h1 h2]
  simp

theorem iterAt_total_eq_end {α : Type} (st : DequeState α) (h : WF st)
    (hne : st.blocks ≠ []) : iterAt st st.total_size = dequeEnd st := by
  unfold iterAt dequeEnd
  rw [h.1, iterAtAux_total st.blocks 0 hne, if_neg (by simp [hne])]
  simp

theorem dequeBegin_eq_iterAt_zero {α : Type} (st : DequeState α) (h : WF st)
    (hne : st.blocks ≠ []) : dequeBegin st = iterAt st 0 := by
  unfold dequeBegin iterAt
  cases hb : st.blocks with
  | nil => exact absurd hb hne
  | cons b rest =>
      have hbne : b ≠ [] := h.2 b (by rw [hb]; exact List.mem_cons_self _ _)
      have hlen : 0 < b.length := List.length_pos.mpr hbne
      simp [iterAtAux, listBegin, hlen, List.isEmpty_iff, hbne]

/-- Bookkeeping facts about a decomposition `l.drop bi = b :: rest`. -/
theorem drop_facts {α : Type} (l : List (List α)) (bi : Nat) (b : List α)
    (rest : List (List α)) (h : l.drop bi = b :: rest) :
    l[bi]? = some b ∧ l.drop (bi + 1) = rest ∧
    sumLen (l.take (bi + 1)) = sumLen (l.take bi) + b.length ∧
    sumLen l = sumLen (l.take bi) + b.length + sumLen rest ∧ l ≠ [] := by
  have hget : l[bi]? = some b := by
    have h0 := List.getElem?_drop l bi 0
    rw [h] at h0
    simp at h0
    exact h0.symm
  have hdrop1 : l.drop (bi + 1) = rest := by
    rw [← List.drop_drop, h]
    rfl
  have htake : sumLen (l.take (bi + 1)) = sumLen (l.take bi) + b.length := by
    rw [List.take_succ, hget]
    simp [sumLen_append, sumLen_cons, sumLen_nil]
  have hsum : sumLen l = sumLen (l.take bi) + b.length + sumLen rest := by
    conv_lhs => rw [← List.take_append_drop bi l]
    rw [sumLen_append, h, sumLen_cons]
    omega
  refine ⟨hget, hdrop1, htake, hsum, ?_⟩
  intro hc
  rw [hc] at h
  simp at h

theorem length_of_drop_singleton {α : Type} (l : List (List α)) (bi : Nat) (b : List α)
    (h : l.drop bi = [b]) : l.length = bi + 1 := by
  have hlen := congrArg List.length h
  rw [List.length_drop] at hlen
  simp at hlen
  have : bi < l.length := by
    by_contra hc
    push_neg at hc
    rw [List.drop_eq_nil_of_le hc] at h
    simp at h
  omega

/-! ## Iterator advance -/

theorem addFrom_spec {α : Type} :
    ∀ (suffix : List (List α)) (k remain : Nat),
      (∀ b ∈ suffix, b ≠ []) → remain ≤ sumLen suffix → suffix ≠ [] →
      addFrom suffix k remain = some (iterAtAux suffix k remain) := by
  intro suffix
  induction suffix with
  | nil => intro k r _ _ hc; exact absurd rfl hc
  | cons b rest ih =>
      intro k r hne hr _
      rw [sumLen_cons] at hr
      rw [addFrom, iterAtAux_cons]
      by_cases h1 : r < b.length
      · rw [if_pos h1, if_pos h1]
      · rw [if_neg h1, if_neg h1]
        cases rest with
        | nil =>
            rw [sumLen_nil] at hr
            have : r = b.length := by omega
            simp [this]
        | cons c r2 =>
            rw [if_neg (by simp), if_neg (by simp)]
            exact ih (k + 1) (r - b.length)
              (fun x hx => hne x (List.mem_cons_of_mem _ hx)) (by omega) (by simp)

/-- `operator+` moves the canonical iterator at `p` to the canonical
iterator at `p + n` whenever the target stays inside `[begin, end]`. -/
theorem iterAddNat_spec {α : Type} (st : DequeState α) (h : WF st) (p n : Nat)
    (hpn : p + n ≤ st.total_size) :
    iterAddNat st (iterAt st p) n = some (iterAt st (p + n)) := by
  rcases Nat.eq_zero_or_pos n with hn | hn
  · subst hn
    simp [iterAddNat]
  · have hp : p < st.total_size := by omega
    obtain ⟨bi, b, rest, j, hdrop, hj, hpre, hit⟩ := iterAt_char_lt st h p hp
    obtain ⟨hget, hdrop1, htake, hsum, hlne⟩ := drop_facts st.blocks bi b rest hdrop
    rw [hit]
    unfold iterAddNat
    rw [if_neg (by omega)]
    simp only
    rw [hdrop]
    simp only [itemPos, if_pos hj]
    by_cases hcase : n < b.length - j
    · rw [if_pos hcase]
      have := iterAtAux_of_decomp bi st.blocks 0 b rest (j + n) hdrop (by omega)
      simp only [Nat.zero_add] at this
      unfold iterAt
      rw [show p + n = sumLen (st.blocks.take bi) + (j + n) by omega, this]
    · rw [if_neg hcase]
      cases rest with
      | nil =>
          have htot : st.total_size = sumLen (st.blocks.take bi) + b.length := by
            rw [h.1, hsum, sumLen_nil]
            omega
          have hrem : n - (b.length - j) = 0 := by omega
          rw [hrem, if_pos (by simp)]
          have hpn' : p + n = st.total_size := by omega
          rw [hpn', iterAt_total_eq_end st h hlne]
      | cons c rest2 =>
          have hrem : ¬(n - (b.length - j) = 0 ∧ (c :: rest2).isEmpty = true) := by
            simp
          rw [if_neg hrem]
          simp only
          have hmem : ∀ x ∈ c :: rest2, x ≠ [] := by
            intro x hx
            refine h.2 x (List.mem_of_mem_drop (n := bi) ?_)
            rw [hdrop]
            exact List.mem_cons_of_mem _ hx
          have hbound : n - (b.length - j) ≤ sumLen (c :: rest2) := by
            rw [h.1, hsum] at hpn
            omega
          rw [addFrom_spec (c :: rest2) (bi + 1) (n - (b.length - j)) hmem hbound (by simp)]
          unfold iterAt
          rw [iterAtAux_suffix (bi + 1) st.blocks 0 (p + n)
            (by rw [hdrop1]; simp) (by rw [htake]; omega)]
          rw [hdrop1, htake]
          have e : p + n - (sumLen (st.blocks.take bi) + b.length) = n - (b.length - j) := by
            omega
          rw [e]
          simp

/-- Prefix `++` moves the canonical iterator at `p < size` to the canonical
iterator at `p + 1`. -/
theorem iterInc_spec {α : Type} (st : DequeState α) (h : WF st) (p : Nat)
    (hp : p < st.total_size) :
    iterInc st (iterAt st p) = some (iterAt st (p + 1)) := by
  obtain ⟨bi, b, rest, j, hdrop, hj, hpre, hit⟩ := iterAt_char_lt st h p hp
  obtain ⟨hget, hdrop1, htake, hsum, hlne⟩ := drop_facts st.blocks bi b rest hdrop
  rw [hit]
  unfold iterInc
  simp only
  rw [hdrop]
  simp only [if_pos hj]
  by_cases hnext : j + 1 = b.length
  · rw [if_pos hnext]
    cases rest with
    | nil =>
        simp only
        have htot : st.total_size = sumLen (st.blocks.take bi) + b.length := by
          rw [h.1, hsum, sumLen_nil]
          omega
        have hlen : st.blocks.length = bi + 1 := length_of_drop_singleton _ _ _ hdrop
        have hp1 : p + 1 = st.total_size := by omega
        rw [hp1]
        unfold iterAt
        rw [h.1, iterAtAux_total st.blocks 0 hlne, hlen]
        simp
    | cons c rest2 =>
        simp only
        have hcne : c ≠ [] := by
          refine h.2 c (List.mem_of_mem_drop (n := bi) ?_)
          rw [hdrop]
          exact List.mem_cons_of_mem _ (List.mem_cons_self _ _)
        have := iterAtAux_of_decomp (bi + 1) st.blocks 0 c rest2 0
          (by rw [hdrop1]) (List.length_pos.mpr hcne)
        simp only [Nat.zero_add, Nat.add_zero] at this
        unfold iterAt
        rw [show p + 1 = sumLen (st.blocks.take (bi + 1)) by omega, this]
        rw [listBegin, if_neg (by simp [hcne])]
  · rw [if_neg hnext]
    have := iterAtAux_of_decomp bi st.blocks 0 b rest (j + 1) hdrop (by omega)
    simp only [Nat.zero_add] at this
    unfold iterAt
    rw [show p + 1 = sumLen (st.blocks.take bi) + (j + 1) by omega, this]

/-- `n`-fold prefix `++` from the canonical iterator at `p` reaches the
canonical iterator at `p + n`. -/
theorem iterIncN_spec {α : Type} (st : DequeState α) (h : WF st) (p n : Nat)
    (hpn : p + n ≤ st.total_size) :
    iterIncN st (iterAt st p) n = some (iterAt st (p + n)) := by
  induction n with
  | zero => rfl
  | succ n ih =>
      rw [iterIncN, ih (by omega)]
      exact iterInc_spec st h (p + n) (by omega)

/-! ## Iterator retreat -/

theorem take_reverse_cons {α : Type} (l : List (List α)) (bi : Nat) (h : bi < l.length) :
    (l.take (bi + 1)).reverse = l[bi] :: (l.take bi).reverse := by
  rw [List.take_succ, List.getElem?_eq_getElem h]
  simp

theorem subFrom_spec {α : Type} (l : List (List α)) :
    ∀ (bi : Nat), bi < l.length → (∀ b ∈ l, b ≠ []) →
      ∀ (rem : Nat), rem < sumLen (l.take (bi + 1)) →
      subFrom ((l.take (bi + 1)).reverse) bi rem =
        some (iterAtAux l 0 (sumLen (l.take (bi + 1)) - 1 - rem)) := by
  intro bi
  induction bi with
  | zero =>
      intro h1 h2 rem h3
      have hsplit : (l.take (0 + 1)).reverse = l[0] :: (l.take 0).reverse :=
        take_reverse_cons l 0 h1
      rw [List.take_zero, List.reverse_nil] at hsplit
      have hsum : sumLen (l.take (0 + 1)) = l[0].length := by
        rw [List.take_succ, List.getElem?_eq_getElem h1, List.take_zero]
        simp [sumLen]
      rw [hsum] at h3
      rw [hsplit, hsum, subFrom, if_pos h3]
      have hdrop : l.drop 0 = l[0] :: l.drop 1 := List.drop_eq_getElem_cons h1
      have := iterAtAux_of_decomp 0 l 0 l[0] (l.drop 1) (l[0].length - 1 - rem) hdrop
        (by omega)
      simp only [List.take_zero, sumLen_nil, Nat.zero_add] at this
      rw [this]
  | succ bi ih =>
      intro h1 h2 rem h3
      have hbi : bi < l.length := by omega
      have hsplit : (l.take (bi + 1 + 1)).reverse = l[bi + 1] :: (l.take (bi + 1)).reverse :=
        take_reverse_cons l (bi + 1) h1
      have hdrop : l.drop (bi + 1) = l[bi + 1] :: l.drop (bi + 2) :=
        List.drop_eq_getElem_cons h1
      obtain ⟨hget, _, htake, _, _⟩ := drop_facts l (bi + 1) l[bi + 1] (l.drop (bi + 2)) hdrop
      rw [htake] at h3 ⊢
      rw [hsplit, subFrom]
      by_cases hrem : rem < l[bi + 1].length
      · rw [if_pos hrem]
        have := iterAtAux_of_decomp (bi + 1) l 0 l[bi + 1] (l.drop (bi + 2))
          (l[bi + 1].length - 1 - rem) hdrop (by omega)
        simp only [Nat.zero_add] at this
        rw [show sumLen (l.take (bi + 1)) + l[bi + 1].length - 1 - rem =
            sumLen (l.take (bi + 1)) + (l[bi + 1].length - 1 - rem) by omega, this]
      · rw [if_neg hrem]
        have hne2 : ((l.take (bi + 1)).reverse).isEmpty = false := by
          rw [take_reverse_cons l bi hbi]
          rfl
        rw [hne2]
        simp only [Bool.false_eq_true, if_false, Nat.add_sub_cancel]
        have hrec := ih hbi h2 (rem - l[bi + 1].length) (by omega)
        rw [hrec]
        rw [show sumLen (l.take (bi + 1)) - 1 - (rem - l[bi + 1].length) =
            sumLen (l.take (bi + 1)) + l[bi + 1].length - 1 - rem by omega]

theorem subMain_spec {α : Type} (st : DequeState α) (h : WF st) (bi j n : Nat) (b : List α)
    (hget : st.blocks[bi]? = some b) (hj : j < b.length)
    (hn : n ≤ sumLen (st.blocks.take bi) + j) :
    subMain st bi b (some j) n =
      some (iterAtAux st.blocks 0 (sumLen (st.blocks.take bi) + j - n)) := by
  have hbi : bi < st.blocks.length := by
    by_contra hc
    push_neg at hc
    rw [List.getElem?_eq_none_iff.mpr hc] at hget
    cases hget
  have hbeq : st.blocks[bi] = b := by
    have := List.getElem?_eq_getElem hbi
    rw [hget] at this
    exact (Option.some.injEq _ _ ▸ this.symm :)
  rw [subMain]
  rw [if_pos hj]
  by_cases hcase : n ≤ j
  · rw [if_pos hcase]
    have hdrop : st.blocks.drop bi = b :: st.blocks.drop (bi + 1) := by
      rw [List.drop_eq_getElem_cons hbi, hbeq]
    have := iterAtAux_of_decomp bi st.blocks 0 b (st.blocks.drop (bi + 1)) (j - n) hdrop
      (by omega)
    simp only [Nat.zero_add] at this
    rw [show sumLen (st.blocks.take bi) + j - n = sumLen (st.blocks.take bi) + (j - n) by omega,
      this]
  · rw [if_neg hcase]
    unfold subCross
    have hbi0 : bi ≠ 0 := by
      intro hc
      subst hc
      simp [List.take_zero, sumLen_nil] at hn
      omega
    rw [if_neg hbi0]
    have hbi1 : bi - 1 < st.blocks.length := by omega
    have hsplit : (st.blocks.take bi).reverse =
        st.blocks[bi - 1] :: (st.blocks.take (bi - 1)).reverse := by
      have hs := take_reverse_cons st.blocks (bi - 1) hbi1
      rw [show bi - 1 + 1 = bi by omega] at hs
      exact hs
    rw [hsplit]
    simp only
    rw [← hsplit]
    have hrec := subFrom_spec st.blocks (bi - 1) hbi1 h.2 (n - j - 1) (by
      rw [show bi - 1 + 1 = bi by omega]
      omega)
    rw [show bi - 1 + 1 = bi by omega] at hrec
    rw [hrec]
    rw [show sumLen (st.blocks.take bi) - 1 - (n - j - 1) =
        sumLen (st.blocks.take bi) + j - n by omega]

/-- `operator-` moves the canonical iterator at `q` back to the canonical
iterator at `q - n` whenever `n ≤ q`. -/
theorem iterSubNat_spec {α : Type} (st : DequeState α) (h : WF st) (q n : Nat)
    (hq : q ≤ st.total_size) (hn : n ≤ q) :
    iterSubNat st (iterAt st q) n = some (iterAt st (q - n)) := by
  rcases Nat.eq_zero_or_pos n with hn0 | hn0
  · subst hn0
    simp [iterSubNat]
  · have hne : st.blocks ≠ [] := by
      intro hc
      have := (WF_blocks_nil_iff st h).mp hc
      omega
    by_cases hqt : q = st.total_size
    · subst hqt
      rw [iterAt_total_eq_end st h hne]
      unfold iterSubNat
      rw [if_neg (by omega), if_pos rfl, List.getLast?_eq_getLast _ hne]
      simp only
      set bl := st.blocks.getLast hne with hbl
      have hblne : bl ≠ [] := h.2 bl (List.getLast_mem hne)
      rw [if_neg (by simp [hblne])]
      have hL : st.blocks.length - 1 < st.blocks.length := by
        have := List.length_pos.mpr hne
        omega
      have hgetL : st.blocks[st.blocks.length - 1]? = some bl := by
        rw [List.getElem?_eq_getElem hL]
        rw [hbl, List.getLast_eq_getElem]
      have hdropL : st.blocks.drop (st.blocks.length - 1) =
          bl :: st.blocks.drop (st.blocks.length - 1 + 1) := by
        rw [List.drop_eq_getElem_cons hL]
        have : st.blocks[st.blocks.length - 1] = bl := by
          rw [hbl, List.getLast_eq_getElem]
        rw [this]
      obtain ⟨_, _, htakeL, hsumL, _⟩ :=
        drop_facts st.blocks (st.blocks.length - 1) bl _ hdropL
      have hdropnil : st.blocks.drop (st.blocks.length - 1 + 1) = [] := by
        apply List.drop_eq_nil_of_le
        omega
      rw [hdropnil, sumLen_nil] at hsumL
      have hlen1 : 1 ≤ bl.length := List.length_pos.mpr hblne
      have hrec := subMain_spec st h (st.blocks.length - 1) (bl.length - 1) (n - 1) bl hgetL
        (by omega) (by rw [← h.1] at hsumL; omega)
      rw [hrec]
      rw [show sumLen (st.blocks.take (st.blocks.length - 1)) + (bl.length - 1) - (n - 1) =
          st.total_size - n by rw [h.1, hsumL]; omega]
      rfl
    · have hqlt : q < st.total_size := by omega
      obtain ⟨bi, b, rest, j, hdrop, hj, hpre, hit⟩ := iterAt_char_lt st h q hqlt
      obtain ⟨hget, _, _, _, _⟩ := drop_facts st.blocks bi b rest hdrop
      rw [hit]
      unfold iterSubNat
      rw [if_neg (by omega)]
      have hend : (⟨some bi, some j⟩ : Iter) ≠ dequeEnd st := by
        unfold dequeEnd
        rw [if_neg (by simp [hne])]
        simp
      rw [if_neg hend]
      simp only
      rw [hget]
      simp only
      have hrec := subMain_spec st h bi j n b hget hj (by omega)
      rw [hrec]
      rw [show sumLen (st.blocks.take bi) + j - n = q - n by omega]
      rfl

/-! ## Iterator difference -/

theorem lt_length_of_getElem_some {α : Type} (l : List (List α)) (i : Nat) (b : List α)
    (h : l[i]? = some b) : i < l.length := by
  by_contra hc
  push_neg at hc
  rw [List.getElem?_eq_none_iff.mpr hc] at h
  cases h

theorem last_block_facts {α : Type} (l : List (List α)) (hne : l ≠ []) :
    l[l.length - 1]? = some (l.getLast hne) ∧
    sumLen l = sumLen (l.take (l.length - 1)) + (l.getLast hne).length := by
  have hL : l.length - 1 < l.length := by
    have := List.length_pos.mpr hne
    omega
  have hget : l[l.length - 1]? = some (l.getLast hne) := by
    rw [List.getElem?_eq_getElem hL, List.getLast_eq_getElem]
  have hdropL : l.drop (l.length - 1) = l.getLast hne :: l.drop (l.length - 1 + 1) := by
    rw [List.drop_eq_getElem_cons hL, List.getLast_eq_getElem]
  obtain ⟨_, _, _, hsum, _⟩ := drop_facts l (l.length - 1) (l.getLast hne) _ hdropL
  have hdropnil : l.drop (l.length - 1 + 1) = [] := List.drop_eq_nil_of_le (by omega)
  rw [hdropnil, sumLen_nil] at hsum
  exact ⟨hget, by omega⟩

/-- Uniform characterisation of the canonical iterator at any `r ≤ size`:
it names a live block `bi` of contents `b` and an in-block offset `pr`
(the end marker standing at offset `b.length`) with prefix-sum `r`. -/
theorem iterAt_char {α : Type} (st : DequeState α) (h : WF st) (hne : st.blocks ≠ [])
    (r : Nat) (hr : r ≤ st.total_size) :
    ∃ bi item b pr, iterAt st r = ⟨some bi, item⟩ ∧ st.blocks[bi]? = some b ∧
      itemPos b item = some pr ∧ pr ≤ b.length ∧ sumLen (st.blocks.take bi) + pr = r := by
  by_cases hrt : r = st.total_size
  · subst hrt
    obtain ⟨hget, hsum⟩ := last_block_facts st.blocks hne
    refine ⟨st.blocks.length - 1, none, st.blocks.getLast hne,
      (st.blocks.getLast hne).length, ?_, hget, rfl, le_refl _, ?_⟩
    · rw [iterAt_total_eq_end st h hne]
      unfold dequeEnd
      rw [if_neg (by simp [hne])]
    · rw [h.1, hsum]
  · have hlt : r < st.total_size := by omega
    obtain ⟨bi, b, rest, j, hdrop, hj, hpre, hit⟩ := iterAt_char_lt st h r hlt
    obtain ⟨hget, _, _, _, _⟩ := drop_facts st.blocks bi b rest hdrop
    exact ⟨bi, some j, b, j, hit, hget, by rw [itemPos, if_pos hj], by omega, hpre⟩

theorem accumBetween_none {α : Type} (st : DequeState α) :
    ∀ (n k target : Nat), st.blocks.length ≤ k + n → target < k →
      accumBetween st k target = none := by
  intro n
  induction n with
  | zero =>
      intro k target h1 h2
      rw [accumBetween, if_neg (by omega), dif_neg (by omega)]
  | succ n ih =>
      intro k target h1 h2
      rw [accumBetween, if_neg (by omega)]
      by_cases hk : k < st.blocks.length
      · rw [dif_pos hk, ih (k + 1) target (by omega) (by omega)]
        rfl
      · rw [dif_neg hk]

theorem accumBetween_spec {α : Type} (st : DequeState α) :
    ∀ (d k : Nat), k + d ≤ st.blocks.length →
      accumBetween st k (k + d) = some (sumLen ((st.blocks.drop k).take d)) := by
  intro d
  induction d with
  | zero =>
      intro k h1
      rw [accumBetween, if_pos (by omega)]
      simp [sumLen_nil]
  | succ d ih =>
      intro k h1
      have hk : k < st.blocks.length := by omega
      rw [accumBetween, if_neg (by omega), dif_pos hk]
      have := ih (k + 1) (by omega)
      rw [show k + 1 + d = k + (d + 1) by omega] at this
      rw [this]
      have hdropk : st.blocks.drop k = st.blocks[k] :: st.blocks.drop (k + 1) :=
        List.drop_eq_getElem_cons hk
      rw [hdropk, List.take_succ_cons, sumLen_cons]
      rfl

/-- The signed distance computed by `operator-` between the canonical
iterators at `p` and `q` is exactly `p - q`, in either order. -/
theorem iterDiffSigned_spec {α : Type} (st : DequeState α) (h : WF st)
    (hne : st.blocks ≠ []) (p q : Nat) (hp : p ≤ st.total_size) (hq : q ≤ st.total_size) :
    iterDiffSigned st (iterAt st p) (iterAt st q) = some ((p : Int) - (q : Int)) := by
  obtain ⟨b1, item1, blk1, p1, hit1, hget1, hpos1, hle1, hsum1⟩ := iterAt_char st h hne p hp
  obtain ⟨b2, item2, blk2, p2, hit2, hget2, hpos2, hle2, hsum2⟩ := iterAt_char st h hne q hq
  have hb1 : b1 < st.blocks.length := lt_length_of_getElem_some _ _ _ hget1
  have hb2 : b2 < st.blocks.length := lt_length_of_getElem_some _ _ _ hget2
  rw [hit1, hit2]
  unfold iterDiffSigned
  simp only
  by_cases hbb : b1 = b2
  · subst hbb
    rw [if_pos rfl, hget1]
    have hblk : blk2 = blk1 := by
      rw [hget1] at hget2
      exact (Option.some.inj hget2).symm
    rw [hblk] at hpos2 hle2
    simp only
    rw [hpos1, hpos2]
    simp only [Option.some.injEq]
    omega
  · rw [if_neg hbb, hget1, hget2]
    simp only
    rw [hpos1, hpos2]
    simp only
    rcases Nat.lt_or_ge b2 b1 with hlt | hge
    · have hmid := accumBetween_spec st (b1 - b2 - 1) (b2 + 1) (by omega)
      rw [show b2 + 1 + (b1 - b2 - 1) = b1 by omega] at hmid
      rw [hmid]
      simp only [Option.some.injEq]
      have hpre : sumLen (st.blocks.take b1) = sumLen (st.blocks.take (b2 + 1)) +
          sumLen ((st.blocks.drop (b2 + 1)).take (b1 - b2 - 1)) := by
        conv_lhs => rw [show b1 = (b2 + 1) + (b1 - b2 - 1) by omega]
        rw [List.take_add, sumLen_append]
      have htk2 : sumLen (st.blocks.take (b2 + 1)) =
          sumLen (st.blocks.take b2) + blk2.length := by
        rw [List.take_succ, hget2, Option.toList_some, sumLen_append, sumLen_cons, sumLen_nil]
        omega
      omega
    · have hlt : b1 < b2 := by omega
      rw [accumBetween_none st st.blocks.length (b2 + 1) b1 (by omega) (by omega)]
      have hmid := accumBetween_spec st (b2 - b1 - 1) (b1 + 1) (by omega)
      rw [show b1 + 1 + (b2 - b1 - 1) = b2 by omega] at hmid
      rw [hmid]
      simp only [Option.some.injEq]
      have hpre : sumLen (st.blocks.take b2) = sumLen (st.blocks.take (b1 + 1)) +
          sumLen ((st.blocks.drop (b1 + 1)).take (b2 - b1 - 1)) := by
        conv_lhs => rw [show b2 = (b1 + 1) + (b2 - b1 - 1) by omega]
        rw [List.take_add, sumLen_append]
      have htk1 : sumLen (st.blocks.take (b1 + 1)) =
          sumLen (st.blocks.take b1) + blk1.length := by
        rw [List.take_succ, hget1, Option.toList_some, sumLen_append, sumLen_cons, sumLen_nil]
        omega
      omega

/-! ## Splicing one block's mutation into the flattened sequence -/

theorem insertIdx_append_left {α : Type} (l1 l2 : List α) (n : Nat) (a : α)
    (h : n ≤ l1.length) : (l1 ++ l2).insertIdx n a = l1.insertIdx n a ++ l2 := by
  induction l1 generalizing n with
  | nil =>
      simp at h
      subst h
      simp
  | cons x xs ih =>
      cases n with
      | zero => simp [List.insertIdx_zero]
      | succ n =>
          simp only [List.cons_append, List.insertIdx_succ_cons]
          rw [ih n (by simpa using h)]

theorem insertIdx_append_right {α : Type} (l1 l2 : List α) (n : Nat) (a : α) :
    (l1 ++ l2).insertIdx (l1.length + n) a = l1 ++ l2.insertIdx n a := by
  induction l1 with
  | nil => simp
  | cons x xs ih =>
      simp only [List.cons_append, List.length_cons]
      rw [show xs.length + 1 + n = xs.length + n + 1 by omega, List.insertIdx_succ_cons, ih]

theorem eraseIdx_append_right {α : Type} (l1 l2 : List α) (n : Nat) :
    (l1 ++ l2).eraseIdx (l1.length + n) = l1 ++ l2.eraseIdx n := by
  induction l1 with
  | nil => simp
  | cons x xs ih =>
      simp only [List.cons_append, List.length_cons]
      rw [show xs.length + 1 + n = xs.length + n + 1 by omega, List.eraseIdx_cons_succ, ih]

theorem flatten_set_insertIdx {α : Type} :
    ∀ (bi : Nat) (l : List (List α)) (b : List α) (j : Nat) (v : α),
      l[bi]? = some b → j ≤ b.length →
      (l.set bi (b.insertIdx j v)).flatten =
        l.flatten.insertIdx (sumLen (l.take bi) + j) v := by
  intro bi
  induction bi with
  | zero =>
      intro l b j v hget hj
      cases l with
      | nil => cases hget
      | cons c rest =>
          simp only [List.getElem?_cons_zero, Option.some.injEq] at hget
          subst hget
          simp only [List.set_cons_zero, List.flatten_cons, List.take_zero, sumLen_nil,
            Nat.zero_add]
          rw [insertIdx_append_left _ _ j v hj]
  | succ bi ih =>
      intro l b j v hget hj
      cases l with
      | nil => cases hget
      | cons c rest =>
          simp only [List.getElem?_cons_succ] at hget
          simp only [List.set_cons_succ, List.flatten_cons, List.take_succ_cons, sumLen_cons]
          rw [ih rest b j v hget hj,
            show c.length + sumLen (rest.take bi) + j =
              c.length + (sumLen (rest.take bi) + j) by omega,
            insertIdx_append_right]

theorem flatten_set_eraseIdx {α : Type} :
    ∀ (bi : Nat) (l : List (List α)) (b : List α) (j : Nat),
      l[bi]? = some b → j < b.length →
      (l.set bi (b.eraseIdx j)).flatten = l.flatten.eraseIdx (sumLen (l.take bi) + j) := by
  intro bi
  induction bi with
  | zero =>
      intro l b j hget hj
      cases l with
      | nil => cases hget
      | cons c rest =>
          simp only [List.getElem?_cons_zero, Option.some.injEq] at hget
          subst hget
          simp only [List.set_cons_zero, List.flatten_cons, List.take_zero, sumLen_nil,
            Nat.zero_add]
          rw [List.eraseIdx_append_of_lt_length hj]
  | succ bi ih =>
      intro l b j hget hj
      cases l with
      | nil => cases hget
      | cons c rest =>
          simp only [List.getElem?_cons_succ] at hget
          simp only [List.set_cons_succ, List.flatten_cons, List.take_succ_cons, sumLen_cons]
          rw [ih rest b j hget hj,
            show c.length + sumLen (rest.take bi) + j =
              c.length + (sumLen (rest.take bi) + j) by omega,
            eraseIdx_append_right]

theorem flatten_eraseIdx_block {α : Type} :
    ∀ (bi : Nat) (l : List (List α)) (x : α),
      l[bi]? = some [x] →
      (l.eraseIdx bi).flatten = l.flatten.eraseIdx (sumLen (l.take bi)) := by
  intro bi
  induction bi with
  | zero =>
      intro l x hget
      cases l with
      | nil => cases hget
      | cons c rest =>
          simp only [List.getElem?_cons_zero, Option.some.injEq] at hget
          subst hget
          simp [sumLen_nil]
  | succ bi ih =>
      intro l x hget
      cases l with
      | nil => cases hget
      | cons c rest =>
          simp only [List.getElem?_cons_succ] at hget
          simp only [List.eraseIdx_cons_succ, List.flatten_cons, List.take_succ_cons,
            sumLen_cons]
          rw [ih rest x hget,
            show c.length + sumLen (rest.take bi) = c.length + (sumLen (rest.take bi) + 0)
              by omega,
            eraseIdx_append_right]
          rw [show sumLen (rest.take bi) + 0 = sumLen (rest.take bi) by omega]

theorem locateAux_eq_iterAtAux {α : Type} :
    ∀ (l : List (List α)) (k dis : Nat), dis < sumLen l →
      locateAux l k dis = iterAtAux l k dis := by
  intro l
  induction l with
  | nil =>
      intro k dis h
      rw [sumLen_nil] at h
      omega
  | cons b rest ih =>
      intro k dis h
      rw [sumLen_cons] at h
      rw [locateAux, iterAtAux_cons]
      by_cases h1 : dis < b.length
      · rw [if_pos h1, if_pos h1]
      · rw [if_neg h1, if_neg h1]
        cases rest with
        | nil =>
            rw [sumLen_nil] at h
            omega
        | cons c r2 =>
            rw [if_neg (by simp), if_neg (by simp)]
            exact ih (k + 1) (dis - b.length) (by omega)

/-! ## insert and erase -/

/-- `deque::insert` at the canonical iterator of any valid position
`p ≤ size` succeeds, splices the value at logical index `p`, bumps the
count, preserves the invariant, and returns the freshly recomputed
iterator at logical offset `p` (pointing at the inserted value). -/
theorem insert_spec {α : Type} (st : DequeState α) (h : WF st) (p : Nat) (v : α)
    (hp : p ≤ st.total_size) :
    ∃ st2 it2, insert st (iterAt st p) v = .ok (st2, it2) ∧ WF st2 ∧
      st2.blocks.flatten = st.blocks.flatten.insertIdx p v ∧
      st2.total_size = st.total_size + 1 ∧ it2 = iterAt st2 p := by
  by_cases hbl : st.blocks = []
  · have h0 : st.total_size = 0 := (WF_blocks_nil_iff st h).mp hbl
    have hp0 : p = 0 := by omega
    subst hp0
    have hi : iterAt st 0 = ⟨none, none⟩ := by
      unfold iterAt
      rw [hbl]
      rfl
    have he : dequeEnd st = ⟨none, none⟩ := by
      unfold dequeEnd
      rw [if_pos (by simp [hbl])]
    refine ⟨{ st with blocks := [[v]], total_size := st.total_size + 1 }, ⟨some 0, some 0⟩,
      ?_, ?_, ?_, rfl, ?_⟩
    · unfold insert
      split
      · rw [if_neg (by rw [hi, he]; simp)]
      · next heq =>
          rw [hbl] at heq
          simp at heq
    · constructor
      · show st.total_size + 1 = sumLen [[v]]
        rw [h0]
        rfl
      · intro x hx
        simp at hx
        rw [hx]
        simp
    · show [[v]].flatten = st.blocks.flatten.insertIdx 0 v
      rw [hbl]
      simp
    · show (⟨some 0, some 0⟩ : Iter) = iterAt _ 0
      unfold iterAt
      rw [iterAtAux_cons]
      simp
  · have hne := hbl
    obtain ⟨bi, item, b, pr, hit, hget, hpos, hle, hsum⟩ := iterAt_char st h hne p hp
    have hdiff : iterDiffSigned st ⟨some bi, item⟩ (dequeBegin st) = some ((p : Nat) : Int) := by
      rw [← hit, dequeBegin_eq_iterAt_zero st h hne]
      have h2 := iterDiffSigned_spec st h hne p 0 hp (by omega)
      simpa using h2
    set bl2 := st.blocks.set bi (b.insertIdx pr v) with hbl2
    set stp := ({ st with blocks := bl2, total_size := st.total_size + 1 } : DequeState α)
      with hstp
    have hplen : p ≤ st.blocks.flatten.length := by
      rw [← sumLen_eq_length_flatten, ← h.1]
      omega
    have hflbl2 : bl2.flatten = st.blocks.flatten.insertIdx p v := by
      rw [hbl2, flatten_set_insertIdx bi st.blocks b pr v hget hle, hsum]
    have hwfp : WF stp := by
      constructor
      · show st.total_size + 1 = sumLen bl2
        rw [sumLen_eq_length_flatten, hflbl2,
          List.length_insertIdx p _ hplen,
          ← sumLen_eq_length_flatten, ← h.1]
      · show ∀ x ∈ bl2, x ≠ []
        intro x hx
        rw [hbl2] at hx
        rcases List.mem_or_eq_of_mem_set hx with hx | hx
        · exact h.2 x hx
        · rw [hx]
          have hlen : (b.insertIdx pr v).length = b.length + 1 :=
            List.length_insertIdx _ _ hle
          intro hc
          rw [hc] at hlen
          simp at hlen
    have hwf1 : WF (Balance stp) := Balance_WF _ hwfp
    have hfl1 : (Balance stp).blocks.flatten = st.blocks.flatten.insertIdx p v := by
      rw [Balance_flatten]
      exact hflbl2
    have ht1 : (Balance stp).total_size = st.total_size + 1 := by
      rw [Balance_total]
    refine ⟨Balance stp, locateAux (Balance stp).blocks 0 p, ?_, hwf1, hfl1, ht1, ?_⟩
    · unfold insert
      split
      · next heq => exact absurd heq hbl
      · rw [hit]
        simp only
        rw [hdiff]
        simp only [Int.toNat_natCast]
        rw [if_neg (by omega), hget]
        simp only
        rw [hpos]
    · have hplen1 : p < sumLen (Balance stp).blocks := by
        rw [← hwf1.1, ht1]
        omega
      rw [locateAux_eq_iterAtAux _ 0 p hplen1]
      rfl

/-- `deque::erase` at the canonical iterator of any occupied position
`p < size` succeeds, removes the element at logical index `p`, decrements
the count, and preserves the invariant. -/
theorem erase_spec {α : Type} (st : DequeState α) (h : WF st) (p : Nat)
    (hp : p < st.total_size) :
    ∃ st2 it2, erase st (iterAt st p) = .ok (st2, it2) ∧ WF st2 ∧
      st2.blocks.flatten = st.blocks.flatten.eraseIdx p ∧
      st2.total_size = st.total_size - 1 := by
  have hne : st.blocks ≠ [] := by
    intro hc
    have := (WF_blocks_nil_iff st h).mp hc
    omega
  obtain ⟨bi, b, rest, j, hdrop, hj, hsum, hit⟩ := iterAt_char_lt st h p hp
  obtain ⟨hget, _, _, _, _⟩ := drop_facts st.blocks bi b rest hdrop
  have hdiff : iterDiffSigned st ⟨some bi, some j⟩ (dequeBegin st) = some ((p : Nat) : Int) := by
    rw [← hit, dequeBegin_eq_iterAt_zero st h hne]
    have h2 := iterDiffSigned_spec st h hne p 0 (by omega) (by omega)
    simpa using h2
  set b2 := b.eraseIdx j with hb2
  set bl := (if b2.isEmpty then st.blocks.eraseIdx bi else st.blocks.set bi b2) with hblv
  set stp := ({ st with blocks := bl, total_size := st.total_size - 1 } : DequeState α)
    with hstp
  have hplen : p < st.blocks.flatten.length := by
    rw [← sumLen_eq_length_flatten, ← h.1]
    omega
  have hflbl : bl.flatten = st.blocks.flatten.eraseIdx p := by
    rw [hblv]
    split
    · next hemp =>
        have hb1 : b.length = 1 := by
          have := congrArg List.length (List.isEmpty_iff.mp hemp)
          rw [hb2, List.length_eraseIdx_of_lt hj] at this
          simp at this
          omega
        have hj0 : j = 0 := by omega
        obtain ⟨x, hx⟩ : ∃ x, b = [x] := by
          cases b with
          | nil => simp at hb1
          | cons y ys =>
              refine ⟨y, ?_⟩
              have hl : ys.length = 0 := by
                simp only [List.length_cons] at hb1
                omega
              rw [List.length_eq_zero.mp hl]
        rw [flatten_eraseIdx_block bi st.blocks x (by rw [← hx]; exact hget)]
        rw [show sumLen (st.blocks.take bi) = p by omega]
    · rw [hb2, flatten_set_eraseIdx bi st.blocks b j hget hj, hsum]
  have hmembl : ∀ x ∈ bl, x ≠ [] := by
    intro x hx
    rw [hblv] at hx
    revert hx
    split
    · intro hx
      exact h.2 x ((List.eraseIdx_sublist st.blocks bi).subset hx)
    · next hemp =>
        intro hx
        rcases List.mem_or_eq_of_mem_set hx with hx | hx
        · exact h.2 x hx
        · rw [hx]
          intro hc
          rw [hc] at hemp
          simp at hemp
  have hwfp : WF stp := by
    constructor
    · show st.total_size - 1 = sumLen bl
      rw [sumLen_eq_length_flatten, hflbl, List.length_eraseIdx_of_lt hplen,
        ← sumLen_eq_length_flatten, ← h.1]
    · exact hmembl
  have hcomp : erase st (iterAt st p) =
      (if stp.total_size = 0 ∨ p = stp.total_size then .ok (stp, dequeEnd stp)
       else .ok (Balance stp, locateAux (Balance stp).blocks 0 p)) := by
    unfold erase
    rw [hit]
    simp only
    rw [hdiff]
    simp only [Int.toNat_natCast]
    rw [if_neg (by omega), hget]
    simp only
    rw [if_neg (by omega)]
  by_cases hend : stp.total_size = 0 ∨ p = stp.total_size
  · refine ⟨stp, dequeEnd stp, ?_, hwfp, hflbl, rfl⟩
    rw [hcomp, if_pos hend]
  · refine ⟨Balance stp, locateAux (Balance stp).blocks 0 p, ?_, Balance_WF _ hwfp, ?_, ?_⟩
    · rw [hcomp, if_neg hend]
    · rw [Balance_flatten]
      exact hflbl
    · rw [Balance_total]

/-! ## The operation-sequence simulation -/

theorem stepDeque_sim {α : Type} (st : DequeState α) (l : List α) (op : DequeOp α)
    (h : WF st) (hfl : st.blocks.flatten = l) :
    WF (stepDeque st op) ∧ (stepDeque st op).blocks.flatten = stepRef l op := by
  have hlen : st.total_size = l.length := by
    rw [h.1, sumLen_eq_length_flatten, hfl]
  cases op with
  | push_back v =>
      obtain ⟨hw, hf, _⟩ := push_back_spec st v h
      refine ⟨hw, ?_⟩
      show (push_back st v).blocks.flatten = l ++ [v]
      rw [hf, hfl]
  | push_front v =>
      obtain ⟨hw, hf, _⟩ := push_front_spec st v h
      refine ⟨hw, ?_⟩
      show (push_front st v).blocks.flatten = v :: l
      rw [hf, hfl]
  | pop_back =>
      by_cases h0 : st.total_size = 0
      · have herr := pop_back_err st h0
        have hl0 : l = [] := List.length_eq_zero.mp (by omega)
        constructor
        · show WF (match pop_back st with | .ok s => s | .error _ => st)
          rw [herr]
          exact h
        · show (match pop_back st with | .ok s => s | .error _ => st).blocks.flatten =
            l.dropLast
          rw [herr, hl0]
          simpa using hfl.trans hl0
      · obtain ⟨st2, hok, hw2, hf2, _⟩ := pop_back_spec st h h0
        constructor
        · show WF (match pop_back st with | .ok s => s | .error _ => st)
          rw [hok]
          exact hw2
        · show (match pop_back st with | .ok s => s | .error _ => st).blocks.flatten =
            l.dropLast
          rw [hok]
          simp only
          rw [hf2, hfl]
  | pop_front =>
      by_cases h0 : st.total_size = 0
      · have herr := pop_front_err st h0
        have hl0 : l = [] := List.length_eq_zero.mp (by omega)
        constructor
        · show WF (match pop_front st with | .ok s => s | .error _ => st)
          rw [herr]
          exact h
        · show (match pop_front st with | .ok s => s | .error _ => st).blocks.flatten =
            l.tail
          rw [herr, hl0]
          simpa using hfl.trans hl0
      · obtain ⟨st2, hok, hw2, hf2, _⟩ := pop_front_spec st h h0
        constructor
        · show WF (match pop_front st with | .ok s => s | .error _ => st)
          rw [hok]
          exact hw2
        · show (match pop_front st with | .ok s => s | .error _ => st).blocks.flatten =
            l.tail
          rw [hok]
          simp only
          rw [hf2, hfl]
  | insertAt i v =>
      by_cases hi : i ≤ st.total_size
      · obtain ⟨st2, it2, hok, hw2, hf2, ht2, _⟩ := insert_spec st h i v hi
        have hstep : stepDeque st (.insertAt i v) = st2 := by
          show (if i ≤ st.total_size then
              match insert st (iterAt st i) v with | .ok s => s.1 | .error _ => st
            else st) = st2
          rw [if_pos hi, hok]
        have href : stepRef l (.insertAt i v) = l.insertIdx i v := by
          show (if i ≤ l.length then l.insertIdx i v else l) = l.insertIdx i v
          rw [if_pos (by omega)]
        rw [hstep, href]
        exact ⟨hw2, by rw [hf2, hfl]⟩
      · have hstep : stepDeque st (.insertAt i v) = st := by
          show (if i ≤ st.total_size then
              match insert st (iterAt st i) v with | .ok s => s.1 | .error _ => st
            else st) = st
          rw [if_neg hi]
        have href : stepRef l (.insertAt i v) = l := by
          show (if i ≤ l.length then l.insertIdx i v else l) = l
          rw [if_neg (by omega)]
        rw [hstep, href]
        exact ⟨h, hfl⟩
  | eraseAt i =>
      by_cases hi : i < st.total_size
      · obtain ⟨st2, it2, hok, hw2, hf2, ht2⟩ := erase_spec st h i hi
        have hstep : stepDeque st (.eraseAt i) = st2 := by
          show (if i < st.total_size then
              match erase st (iterAt st i) with | .ok s => s.1 | .error _ => st
            else st) = st2
          rw [if_pos hi, hok]
        have href : stepRef l (.eraseAt i) = l.eraseIdx i := by
          show (if i < l.length then l.eraseIdx i else l) = l.eraseIdx i
          rw [if_pos (by omega)]
        rw [hstep, href]
        exact ⟨hw2, by rw [hf2, hfl]⟩
      · have hstep : stepDeque st (.eraseAt i) = st := by
          show (if i < st.total_size then
              match erase st (iterAt st i) with | .ok s => s.1 | .error _ => st
            else st) = st
          rw [if_neg hi]
        have href : stepRef l (.eraseAt i) = l := by
          show (if i < l.length then l.eraseIdx i else l) = l
          rw [if_neg (by omega)]
        rw [hstep, href]
        exact ⟨h, hfl⟩

theorem emptyDeque_WF {α : Type} : WF (emptyDeque : DequeState α) := by
  constructor
  · rfl
  · intro b hb
    exact absurd hb (List.not_mem_nil b)

theorem runOps_sim {α : Type} (ops : List (DequeOp α)) :
    ∀ (st : DequeState α) (l : List α), WF st → st.blocks.flatten = l →
      WF (ops.foldl stepDeque st) ∧
      (ops.foldl stepDeque st).blocks.flatten = ops.foldl stepRef l := by
  induction ops with
  | nil =>
      intro st l h hf
      exact ⟨h, hf⟩
  | cons op ops ih =>
      intro st l h hf
      obtain ⟨h2, hf2⟩ := stepDeque_sim st l op h hf
      simpa using ih (stepDeque st op) (stepRef l op) h2 hf2

/-! ## The claims -/

/-- C1: for every finite sequence of `push_back`, `push_front`, `insert`,
`erase`, `pop_back` and `pop_front` operations applied to an initially empty
deque, concatenating all blocks' item lists in block order yields exactly the
element sequence of the reference flat-array model run on the same
operations, and `size()` equals both the sum of all blocks' item counts and
the reference model's length.  The runner applies each operation to both
sides (a failing operation leaves both sides unchanged, and an
`insert`/`erase` position not expressible by a valid iterator is a no-op on
both sides); "after every operation" follows because the statement holds for
every prefix of the sequence. -/
theorem C1_sequence_correspondence {α : Type} (ops : List (DequeOp α)) :
    (ops.foldl stepDeque (emptyDeque : DequeState α)).blocks.flatten =
      ops.foldl stepRef ([] : List α) ∧
    (ops.foldl stepDeque (emptyDeque : DequeState α)).total_size =
      sumLen (ops.foldl stepDeque (emptyDeque : DequeState α)).blocks ∧
    (ops.foldl stepDeque (emptyDeque : DequeState α)).total_size =
      (ops.foldl stepRef ([] : List α)).length := by
  obtain ⟨hw, hf⟩ := runOps_sim ops emptyDeque [] emptyDeque_WF rfl
  refine ⟨hf, hw.1, ?_⟩
  rw [hw.1, sumLen_eq_length_flatten, hf]

/-- C2: on every well-formed deque, `at(i)` returns the element at logical
position `i` of the flattened sequence (the reference model) when
`i < size()`, and fails when `i ≥ size()`. -/
theorem C2_at_matches_reference {α : Type} (st : DequeState α) (i : Nat) (h : WF st) :
    deque_at st i = st.blocks.flatten[i]? ∧
    (i < st.total_size → (deque_at st i).isSome = true) ∧
    (st.total_size ≤ i → deque_at st i = none) := by
  refine ⟨deque_at_spec st h i, ?_, ?_⟩
  · intro hi
    have hlen : i < st.blocks.flatten.length := by
      rw [← sumLen_eq_length_flatten, ← h.1]
      exact hi
    rw [deque_at_spec st h i, List.getElem?_eq_getElem hlen]
    rfl
  · intro hi
    unfold deque_at
    rw [if_pos hi]

theorem C2_at_matches_reference_witness :
    deque_at (⟨[[7]], 1, 2⟩ : DequeState Nat) 0 =
      ((⟨[[7]], 1, 2⟩ : DequeState Nat).blocks.flatten)[0]? :=
  (C2_at_matches_reference (⟨[[7]], 1, 2⟩ : DequeState Nat) 0 (by decide)).1

/-- C3: on every well-formed deque, `front`, `back`, `pop_back` and
`pop_front` fail (with the empty-container error) exactly when `size()` is
0; on a nonempty deque `front`/`back` return the first/last logical element,
and `pop_back`/`pop_front` remove exactly the last/first logical element,
decrement `size()` by one, and leave no empty block behind (an emptied
extreme block is removed). -/
theorem C3_empty_container_guards {α : Type} (st : DequeState α) (h : WF st) :
    (front st = none ↔ st.total_size = 0) ∧
    (back st = none ↔ st.total_size = 0) ∧
    ((∃ s, pop_back st = .error s) ↔ st.total_size = 0) ∧
    ((∃ s, pop_front st = .error s) ↔ st.total_size = 0) ∧
    front st = st.blocks.flatten.head? ∧
    back st = st.blocks.flatten.getLast? ∧
    (st.total_size ≠ 0 →
      (∃ st2, pop_back st = .ok st2 ∧
        st2.blocks.flatten = st.blocks.flatten.dropLast ∧
        st2.total_size = st.total_size - 1 ∧ ∀ b ∈ st2.blocks, b ≠ []) ∧
      (∃ st3, pop_front st = .ok st3 ∧
        st3.blocks.flatten = st.blocks.flatten.tail ∧
        st3.total_size = st.total_size - 1 ∧ ∀ b ∈ st3.blocks, b ≠ [])) := by
  obtain ⟨hf1, hf2⟩ := front_spec st h
  obtain ⟨hb1, hb2⟩ := back_spec st h
  refine ⟨hf2, hb2, ?_, ?_, hf1, hb1, ?_⟩
  · constructor
    · rintro ⟨s, hs⟩
      by_contra h0
      obtain ⟨st2, hok, _, _, _⟩ := pop_back_spec st h h0
      rw [hok] at hs
      cases hs
    · intro h0
      exact ⟨st, pop_back_err st h0⟩
  · constructor
    · rintro ⟨s, hs⟩
      by_contra h0
      obtain ⟨st2, hok, _, _, _⟩ := pop_front_spec st h h0
      rw [hok] at hs
      cases hs
    · intro h0
      exact ⟨st, pop_front_err st h0⟩
  · intro h0
    obtain ⟨st2, hok2, hw2, hfl2, ht2⟩ := pop_back_spec st h h0
    obtain ⟨st3, hok3, hw3, hfl3, ht3⟩ := pop_front_spec st h h0
    exact ⟨⟨st2, hok2, hfl2, ht2, hw2.2⟩, ⟨st3, hok3, hfl3, ht3, hw3.2⟩⟩

theorem C3_empty_container_guards_witness :
    front (emptyDeque : DequeState Nat) = none ↔
      (emptyDeque : DequeState Nat).total_size = 0 :=
  (C3_empty_container_guards (emptyDeque : DequeState Nat) (by decide)).1

/-- C4: `Balance` is a no-op when there are no blocks and when the
recomputed `⌊√total_size⌋ + 1` equals the cached `block_size`; when it
rescans, it installs the recomputed `block_size`; and the scan — which
splits in half any block longer than `2·block_size` (second half moved, in
order, into a new block inserted immediately after) and merges a block
shorter than half of `block_size` with its immediate successor only when
the combined size stays within `block_size` (see `balanceScan`) — preserves
the global element order and the element count. -/
theorem C4_balance_spec {α : Type} (st : DequeState α) :
    (st.blocks = [] → Balance st = st) ∧
    (Nat.sqrt st.total_size + 1 = st.block_size → Balance st = st) ∧
    (st.blocks ≠ [] → (Balance st).block_size = Nat.sqrt st.total_size + 1) ∧
    (Balance st).blocks.flatten = st.blocks.flatten ∧
    (Balance st).total_size = st.total_size :=
  ⟨Balance_nil st, Balance_same_bs st, Balance_block_size st, Balance_flatten st,
    Balance_total st⟩

/-- C5: after any mutating operation on a well-formed deque (push, pop,
insert or erase, including the rebalancing each one triggers), no block in
the block list has zero items. -/
theorem C5_no_empty_blocks {α : Type} (st : DequeState α) (op : DequeOp α) (h : WF st) :
    ∀ b ∈ (stepDeque st op).blocks, b ≠ [] :=
  (stepDeque_sim st st.blocks.flatten op h rfl).1.2

theorem C5_no_empty_blocks_witness : ([7, 3] : List Nat) ≠ [] := by
  have h1 : stepDeque (⟨[[7]], 1, 2⟩ : DequeState Nat) (DequeOp.push_back 3) =
      Balance ⟨[[7, 3]], 2, 2⟩ := rfl
  have h2 : Balance (⟨[[7, 3]], 2, 2⟩ : DequeState Nat) = ⟨[[7, 3]], 2, 2⟩ :=
    Balance_same_bs _ (by rw [sqrt_two_eq])
  exact C5_no_empty_blocks (⟨[[7]], 1, 2⟩ : DequeState Nat) (DequeOp.push_back 3)
    (by decide) [7, 3]
    (by rw [h1, h2]; exact List.mem_cons_self _ _)

/-- C6: on every well-formed deque, inserting a value at the canonical
iterator of any valid position (including `end()`) and then erasing at the
iterator returned by `insert` restores the original element sequence and
the original size. -/
theorem C6_insert_erase_roundtrip {α : Type} (st : DequeState α) (p : Nat) (v : α)
    (h : WF st) (hp : p ≤ st.total_size) :
    ∃ st1 it1 st2 it2,
      insert st (iterAt st p) v = .ok (st1, it1) ∧
      erase st1 it1 = .ok (st2, it2) ∧
      st2.blocks.flatten = st.blocks.flatten ∧
      st2.total_size = st.total_size := by
  obtain ⟨st1, it1, hok, hw1, hf1, ht1, hit1⟩ := insert_spec st h p v hp
  have hp1 : p < st1.total_size := by omega
  obtain ⟨st2, it2, hok2, hw2, hf2, ht2⟩ := erase_spec st1 hw1 p hp1
  rw [← hit1] at hok2
  refine ⟨st1, it1, st2, it2, hok, hok2, ?_, by omega⟩
  rw [hf2, hf1]
  exact List.eraseIdx_insertIdx p st.blocks.flatten

theorem C6_insert_erase_roundtrip_witness :
    ∃ st1 it1 st2 it2,
      insert (⟨[[7]], 1, 2⟩ : DequeState Nat) (iterAt (⟨[[7]], 1, 2⟩ : DequeState Nat) 0) 9 = .ok (st1, it1) ∧
      erase st1 it1 = .ok (st2, it2) ∧
      st2.blocks.flatten = (⟨[[7]], 1, 2⟩ : DequeState Nat).blocks.flatten ∧
      st2.total_size = (⟨[[7]], 1, 2⟩ : DequeState Nat).total_size :=
  C6_insert_erase_roundtrip (⟨[[7]], 1, 2⟩ : DequeState Nat) 0 9
    (by decide) (by decide)

/-- C7: for the canonical iterator at any position `p` and any `n ≥ 0` with
`p + n ≤ size()` (the target stays inside `[begin, end]`), `it + n` equals
applying the prefix increment `n` times, and `(it + n) - n` equals `it`. -/
theorem C7_iterator_arithmetic {α : Type} (st : DequeState α) (p n : Nat) (h : WF st)
    (hpn : p + n ≤ st.total_size) :
    iterAdd st (iterAt st p) (n : Int) = some (iterAt st (p + n)) ∧
    iterIncN st (iterAt st p) n = some (iterAt st (p + n)) ∧
    iterSub st (iterAt st (p + n)) (n : Int) = some (iterAt st p) := by
  have h1 : ¬((n : Int) < 0) := by omega
  refine ⟨?_, iterIncN_spec st h p n hpn, ?_⟩
  · unfold iterAdd
    rw [if_neg h1, Int.toNat_natCast]
    exact iterAddNat_spec st h p n hpn
  · unfold iterSub
    rw [if_neg h1, Int.toNat_natCast]
    have hsub := iterSubNat_spec st h (p + n) n (by omega) (by omega)
    rw [Nat.add_sub_cancel] at hsub
    exact hsub

theorem C7_iterator_arithmetic_witness :
    iterAdd (⟨[[7]], 1, 2⟩ : DequeState Nat)
        (iterAt (⟨[[7]], 1, 2⟩ : DequeState Nat) 0) ((1 : Nat) : Int) =
      some (iterAt (⟨[[7]], 1, 2⟩ : DequeState Nat) (0 + 1)) ∧
    iterIncN (⟨[[7]], 1, 2⟩ : DequeState Nat)
        (iterAt (⟨[[7]], 1, 2⟩ : DequeState Nat) 0) 1 =
      some (iterAt (⟨[[7]], 1, 2⟩ : DequeState Nat) (0 + 1)) ∧
    iterSub (⟨[[7]], 1, 2⟩ : DequeState Nat)
        (iterAt (⟨[[7]], 1, 2⟩ : DequeState Nat) (0 + 1)) ((1 : Nat) : Int) =
      some (iterAt (⟨[[7]], 1, 2⟩ : DequeState Nat) 0) :=
  C7_iterator_arithmetic (⟨[[7]], 1, 2⟩ : DequeState Nat) 0 1 (by decide)
    (by decide)

/-- C8, counterexample: on the one-element deque obtained by
`push_back 0`, with `it0 = begin() + 0` and `it1 = begin() + 1 (= end())`,
the difference `it0 - it1` returns the `size_t` value `2^64 - 1`, not the
negative value `0 - 1 = -1` the claim asserts (the signed distance is
computed internally but is wrapped by the unsigned return type); moreover on
an empty deque the difference of `begin() + 0` with itself throws instead of
returning `0 - 0`. -/
theorem C8_difference_counterexample :
    push_back (emptyDeque : DequeState Nat) 0 = ⟨[[0]], 1, 2⟩ ∧
    iterAdd (⟨[[0]], 1, 2⟩ : DequeState Nat)
        (dequeBegin (⟨[[0]], 1, 2⟩ : DequeState Nat)) 0 =
      some ⟨some 0, some 0⟩ ∧
    iterAdd (⟨[[0]], 1, 2⟩ : DequeState Nat)
        (dequeBegin (⟨[[0]], 1, 2⟩ : DequeState Nat)) 1 =
      some ⟨some 0, none⟩ ∧
    iterDiffSizeT (⟨[[0]], 1, 2⟩ : DequeState Nat)
        ⟨some 0, some 0⟩ ⟨some 0, none⟩ = some (2 ^ 64 - 1) ∧
    ((2 ^ 64 - 1 : Nat) : Int) ≠ (0 : Int) - 1 ∧
    iterDiffSizeT (emptyDeque : DequeState Nat) (dequeBegin (emptyDeque : DequeState Nat))
        (dequeBegin (emptyDeque : DequeState Nat)) = none := by
  refine ⟨?_, by decide, by decide, by decide, by decide, by decide⟩
  have h1 : push_back (emptyDeque : DequeState Nat) 0 = Balance ⟨[[0]], 1, 4⟩ := rfl
  have h2 : balanceScan 2 [[0]] = ([[0]] : List (List Nat)) := by
    rw [balanceScan_cons, if_neg (by decide), if_neg (by decide), balanceScan_nil]
  rw [h1]
  unfold Balance
  rw [if_neg (by decide)]
  dsimp only
  rw [if_neg (by decide)]
  rw [show Nat.sqrt 1 + 1 = 2 from rfl, h2]

/-- C8, amended: for every well-formed nonempty deque and indices
`i, j ∈ [0, size]`, the signed distance computed by the iterator difference
between `begin() + i` and `begin() + j` is exactly `i - j`; the `size_t`
value actually returned is `(i - j) mod 2^64` — equal to `i - j` when
`i ≥ j`, and to the wrapped value `2^64 + (i - j)` (never negative) when
`i < j`.  On the empty deque the difference fails instead. -/
theorem C8_difference_amended {α : Type} (st : DequeState α) (i j : Nat) (h : WF st)
    (hne : st.blocks ≠ []) (hi : i ≤ st.total_size) (hj : j ≤ st.total_size) :
    iterDiffSigned st (iterAt st i) (iterAt st j) = some ((i : Int) - (j : Int)) ∧
    iterDiffSizeT st (iterAt st i) (iterAt st j) =
      some ((((i : Int) - (j : Int)) % ((2 : Int) ^ 64)).toNat) ∧
    (j ≤ i → i - j < 2 ^ 64 →
      iterDiffSizeT st (iterAt st i) (iterAt st j) = some (i - j)) := by
  have h1 := iterDiffSigned_spec st h hne i j hi hj
  have hsz : iterDiffSizeT st (iterAt st i) (iterAt st j) =
      some ((((i : Int) - (j : Int)) % ((2 : Int) ^ 64)).toNat) := by
    unfold iterDiffSizeT
    rw [h1]
    rfl
  refine ⟨h1, hsz, ?_⟩
  intro hle hlt
  rw [hsz]
  have he : ((i : Int) - (j : Int)) % ((2 : Int) ^ 64) = (i : Int) - (j : Int) := by
    omega
  rw [he]
  congr 1
  omega

theorem C8_difference_amended_witness :
    iterDiffSigned (⟨[[0]], 1, 2⟩ : DequeState Nat)
        (iterAt (⟨[[0]], 1, 2⟩ : DequeState Nat) 0)
        (iterAt (⟨[[0]], 1, 2⟩ : DequeState Nat) 1) =
      some (((0 : Nat) : Int) - ((1 : Nat) : Int)) :=
  (C8_difference_amended (⟨[[0]], 1, 2⟩ : DequeState Nat) 0 1 (by decide)
    (by decide) (by decide) (by decide)).1

/-- C9: no mutating operation partially mutates state and then fails: every
throw in `insert`, `erase`, `pop_back` and `pop_front` happens before any
mutation, so the state carried at the moment of the throw is exactly the
input state (`push_back`/`push_front` contain no throw at all and are total
functions of the model). -/
theorem C9_failure_atomicity {α : Type} :
    (∀ (st : DequeState α) (pos : Iter) (v : α) (s : DequeState α),
        insert st pos v = .error s → s = st) ∧
    (∀ (st : DequeState α) (pos : Iter) (s : DequeState α),
        erase st pos = .error s → s = st) ∧
    (∀ (st s : DequeState α), pop_back st = .error s → s = st) ∧
    (∀ (st s : DequeState α), pop_front st = .error s → s = st) := by
  refine ⟨?_, ?_, ?_, ?_⟩
  · intro st pos v s hs
    unfold insert at hs
    repeat' first
      | split at hs
      | (dsimp only at hs; split at hs)
    all_goals first
      | (injection hs with h2; exact h2.symm)
      | exact Except.noConfusion hs
  · intro st pos s hs
    unfold erase at hs
    repeat' first
      | split at hs
      | (dsimp only at hs; split at hs)
    all_goals first
      | (injection hs with h2; exact h2.symm)
      | exact Except.noConfusion hs
  · intro st s hs
    unfold pop_back at hs
    repeat' first
      | split at hs
      | (dsimp only at hs; split at hs)
    all_goals first
      | (injection hs with h2; exact h2.symm)
      | exact Except.noConfusion hs
  · intro st s hs
    unfold pop_front at hs
    repeat' first
      | split at hs
      | (dsimp only at hs; split at hs)
    all_goals first
      | (injection hs with h2; exact h2.symm)
      | exact Except.noConfusion hs

/-- C10: `begin()` equals `end()` exactly when the deque is empty: on an
empty well-formed deque both are the null-null iterator, while on a
nonempty one `begin()` points at the first element of the first block and
`end()` at the one-past-the-last-item position of the tail block, which
never compare equal. -/
theorem C10_begin_end_iff_empty {α : Type} (st : DequeState α) (h : WF st) :
    (dequeBegin st = dequeEnd st ↔ st.total_size = 0) ∧
    (st.total_size = 0 → dequeBegin st = ⟨none, none⟩ ∧ dequeEnd st = ⟨none, none⟩) ∧
    (0 < st.total_size → dequeBegin st = ⟨some 0, some 0⟩ ∧
      dequeEnd st = ⟨some (st.blocks.length - 1), none⟩) := by
  have hiff := WF_blocks_nil_iff st h
  by_cases h0 : st.total_size = 0
  · have hb : st.blocks = [] := hiff.mpr h0
    have hbeg : dequeBegin st = ⟨none, none⟩ := by
      unfold dequeBegin
      rw [hb]
    have hend : dequeEnd st = ⟨none, none⟩ := by
      unfold dequeEnd
      rw [if_pos (by simp [hb])]
    refine ⟨?_, fun _ => ⟨hbeg, hend⟩, fun hpos => absurd h0 (by omega)⟩
    constructor
    · intro _
      exact h0
    · intro _
      rw [hbeg, hend]
  · have hb : st.blocks ≠ [] := fun hc => h0 (hiff.mp hc)
    cases hbc : st.blocks with
    | nil => exact absurd hbc hb
    | cons b rest =>
        have hbne : b ≠ [] := h.2 b (by rw [hbc]; exact List.mem_cons_self _ _)
        have hbeg : dequeBegin st = ⟨some 0, some 0⟩ := by
          unfold dequeBegin
          rw [hbc]
          dsimp only
          unfold listBegin
          rw [if_neg (by simp [List.isEmpty_iff, hbne])]
        have hend : dequeEnd st = ⟨some ((b :: rest).length - 1), none⟩ := by
          unfold dequeEnd
          rw [hbc, if_neg (by simp)]
        refine ⟨?_, fun hz => absurd hz h0, fun _ => ⟨hbeg, hend⟩⟩
        constructor
        · intro heq
          rw [hbeg, hend] at heq
          injection heq with h1 h2
          exact Option.noConfusion h2
        · intro hz
          exact absurd hz h0

theorem C10_begin_end_iff_empty_witness :
    dequeBegin (emptyDeque : DequeState Nat) = dequeEnd (emptyDeque : DequeState Nat) ↔
      (emptyDeque : DequeState Nat).total_size = 0 :=
  (C10_begin_end_iff_empty (emptyDeque : DequeState Nat) (by decide)).1

end DequeVerify
